import Mathlib

/-!
Shallow embedding of the quotes repository's two analytical modules:
`weight_tags.py` (tag relevance weighting engine) and
`build_tag_connections.py` (tag relatedness engine).

Modelling conventions:
* Python `dict` / `Counter` objects are embedded as insertion-ordered
  association lists, since iteration order matters to the pipeline.
* Python floats are modelled as exact rationals (`ℚ`).  The two
  transcendental library calls `math.sqrt` and `math.log` are abstracted
  as function parameters `sqrtQ logQ : ℚ → ℚ`, so every theorem about the
  code that touches them holds for an arbitrary interpretation of those
  two symbols; all other arithmetic is exact.
* Strings are ASCII in this corpus; `str.lower`, `\w` and `str.split`
  are modelled with their ASCII semantics.
* `re.search` is only ever called on patterns of the shape
  `\bw1\b.*\bw2\b...\bwn\b` produced by `compute_quote_relevance`; its
  semantics for exactly that pattern family is embedded directly
  (`searchPattern`), including the fact that `.` does not match a
  newline.
-/

set_option maxRecDepth 100000

/-! ### Executable rational arithmetic

The Batteries implementations of `Rat.add`, `Rat.mul`, `Rat.sub`,
`Rat.inv` and `Rat.ofScientific` are marked `@[irreducible]`, which
blocks definitional evaluation of concrete test cases.  We therefore
work with thin wrappers over `Rat.divInt` (which does reduce) and prove
once that they agree with the ordinary field operations on `ℚ`.
Non-integer float literals of the Python source are written as exact
fractions via `Rat.divInt` (e.g. `0.4` is `Rat.divInt 2 5`). -/

/-- Exact rational addition (Python float `+`, modelled exactly). -/
def qAdd (a b : ℚ) : ℚ := Rat.divInt (a.num * b.den + b.num * a.den) (a.den * b.den)

/-- Exact rational multiplication. -/
def qMul (a b : ℚ) : ℚ := Rat.divInt (a.num * b.num) (a.den * b.den)

/-- Exact rational subtraction. -/
def qSub (a b : ℚ) : ℚ := Rat.divInt (a.num * b.den - b.num * a.den) (a.den * b.den)

/-- Exact rational division.  Python raises on division by zero; the
pipeline never divides by zero (guarded by the code), and this total
model returns `0` there, like `ℚ` division. -/
def qDiv (a b : ℚ) : ℚ := Rat.divInt (a.num * b.den) (a.den * b.num)

/-- Decidable `a ≤ b` on `ℚ` by cross-multiplication. -/
def qLe (a b : ℚ) : Bool := decide (a.num * b.den ≤ b.num * a.den)

/-- Python `min(a, b)` (returns `a` on ties, like Python). -/
def ratMin (a b : ℚ) : ℚ := bif qLe a b then a else b

/-- ASCII model of Python `str.lower()`. -/
def strLower (s : String) : String := String.mk (s.data.map Char.toLower)

/-- `needle` is a prefix of `hay` (character lists). -/
def prefixOfChars : List Char → List Char → Bool
  | [], _ => true
  | _ :: _, [] => false
  | a :: as, b :: bs => a == b && prefixOfChars as bs

/-- `needle` occurs contiguously inside `hay` (character lists). -/
def subOfChars : List Char → List Char → Bool
  | needle, [] => needle.isEmpty
  | needle, hay@(_ :: rest) => prefixOfChars needle hay || subOfChars needle rest

/-- Python's substring test `a in b`.  Note that in Python the empty
string is a substring of every string, which `subOfChars` matches. -/
def substr (a b : String) : Bool := subOfChars a.data b.data

/-- One element of a record's `weighted_tags` field. -/
structure WeightedTag where
  tag : String
  weight : ℚ
  corpus_score : ℚ
  relevance : ℚ
deriving DecidableEq, Repr

/-- A record ("quote") of the corpus.  Missing JSON fields are modelled by
the defaults the Python code substitutes (`q.get('quote','')`, etc.);
`weighted_tags` is `none` when the field is absent and `some []` when it
is present but empty, mirroring the distinction Python's truthiness test
collapses. -/
structure Quote where
  quote : String := ""
  author : String := ""
  tags : List String := []
  weighted_tags : Option (List WeightedTag) := none
deriving DecidableEq, Repr

/-- `EXCLUDED_TAGS` (identical in both source files). -/
def EXCLUDED_TAGS : List String := ["book", "pithy", "quote", "people", "trump", "word"]

/-- The tag-selection step shared verbatim by `compute_tag_frequencies`,
`compute_weighted_tags` and `build_cooccurrence_matrix`:
`if q.get('weighted_tags'): tags = [t['tag'] for t in q['weighted_tags']]
 else: tags = [t.lower() for t in q.get('tags', [])]`.
Python's truthiness makes a present-but-empty list fall back to `tags`. -/
def selectTags (q : Quote) : List String :=
  match q.weighted_tags with
  | some (w :: ws) => (w :: ws).map (fun t => t.tag)
  | _ => q.tags.map strLower

/-- Claim-side variant of `selectTags`, written from the claim's words:
a present weighted-tag sequence is authoritative *including when it is
empty*. -/
def selectTagsClaimed (q : Quote) : List String :=
  match q.weighted_tags with
  | some ws => ws.map (fun t => t.tag)
  | none => q.tags.map strLower

/-! ### Word splitting and the regex pattern semantics -/

/-- ASCII model of Python `str.split()` (split on whitespace runs,
dropping empty pieces). -/
def splitWordsAux : List Char → List Char → List (List Char)
  | [], acc => if acc.isEmpty then [] else [acc.reverse]
  | c :: cs, acc =>
    if c.isWhitespace then
      if acc.isEmpty then splitWordsAux cs [] else acc.reverse :: splitWordsAux cs []
    else splitWordsAux cs (c :: acc)

def splitWords (s : String) : List (List Char) := splitWordsAux s.data []

/-- Python regex `\w` (ASCII): letters, digits, underscore. -/
def isWordChar (c : Char) : Bool := c.isAlphanum || c = '_'

/-- Whether position `i` of `s` holds a word character. -/
def wordAt (s : List Char) (i : Nat) : Bool :=
  match s.get? i with
  | some c => isWordChar c
  | none => false

/-- Python regex `\b`: a word/non-word transition at position `i`
(positions run from `0` to `s.length`). -/
def boundaryAt (s : List Char) (i : Nat) : Bool :=
  if i = 0 then wordAt s 0 else wordAt s i != wordAt s (i - 1)

/-- The literal word `w` occurs at position `i` of `s` with a `\b` on
both sides (i.e. `\bw\b` matches at `i`). -/
def occursAt (s w : List Char) (i : Nat) : Bool :=
  ((s.drop i).take w.length == w) && boundaryAt s i && boundaryAt s (i + w.length)

/-- The span `[a, b)` of `s` is matchable by `.*`: no newline (regex `.`
does not match `'\n'` without `re.DOTALL`). -/
def gapOk (s : List Char) (a b : Nat) : Bool :=
  ((s.drop a).take (b - a)).all (fun c => c != '\n')

/-- Matching of the pattern tail `.*\bw1\b.*\bw2\b...` of
`compute_quote_relevance`'s regex, starting at position `i`:
each word occurs whole-word, in order, and every gap is newline-free. -/
def matchChain (s : List Char) : List (List Char) → Nat → Bool
  | [], _ => true
  | w :: ws, i =>
    (List.range (s.length + 1)).any fun j =>
      decide (i ≤ j) && gapOk s i j && occursAt s w j && matchChain s ws (j + w.length)

/-- `re.search` of the pattern `r'\b' + r'\b.*\b'.join(words) + r'\b'`
over `s`.  For an empty word list the pattern degenerates to `\b\b`,
which matches iff some boundary position exists. -/
def searchPattern (s : List Char) (ws : List (List Char)) : Bool :=
  match ws with
  | [] => (List.range (s.length + 1)).any fun j => boundaryAt s j
  | w :: rest =>
    (List.range (s.length + 1)).any fun j =>
      occursAt s w j && matchChain s rest (j + w.length)

/-- Claim-side matcher: words occur whole-word and in order, with *no*
constraint on the separating text (the claim's "not necessarily
contiguous" reading, which ignores that `.` excludes newlines). -/
def matchChainClaimed (s : List Char) : List (List Char) → Nat → Bool
  | [], _ => true
  | w :: ws, i =>
    (List.range (s.length + 1)).any fun j =>
      decide (i ≤ j) && occursAt s w j && matchChainClaimed s ws (j + w.length)

def searchClaimed (s : List Char) (ws : List (List Char)) : Bool :=
  match ws with
  | [] => (List.range (s.length + 1)).any fun j => boundaryAt s j
  | w :: rest =>
    (List.range (s.length + 1)).any fun j =>
      occursAt s w j && matchChainClaimed s rest (j + w.length)

/-! ### `compute_quote_relevance` (weight_tags.py, lines 64-102) -/

/-- The second text-match branch of `compute_quote_relevance`:
`any(word in quote_text for word in tag_words if len(word) > 3)`. -/
def longWordHit (tagWords : List (List Char)) (quoteText : String) : Bool :=
  tagWords.any fun w => 3 < w.length && substr (String.mk w) quoteText

/-- `compute_quote_relevance(quote, tag)`.  Float literals are the exact
rationals `0.5 = 1/2`, `0.4 = 2/5`, `0.2 = 1/5`, `0.1 = 1/10`. -/
def computeQuoteRelevance (q : Quote) (tag : String) : ℚ :=
  let tagLower := strLower tag
  let quoteText := strLower q.quote
  let author := strLower q.author
  let tagsList := q.tags.map strLower
  let score : ℚ := Rat.divInt 1 2
  let tagWords := splitWords tagLower
  let score :=
    if searchPattern quoteText.data tagWords then qAdd score (Rat.divInt 2 5)
    else if longWordHit tagWords quoteText then qAdd score (Rat.divInt 1 5)
    else score
  let score :=
    if substr tagLower author || substr author tagLower then qMul score (Rat.divInt 1 2)
    else score
  let score :=
    if tagLower ∈ tagsList then
      qAdd score (qMul (Rat.divInt 1 10)
        (qSub 1 (qDiv (tagsList.indexOf tagLower : ℚ) (tagsList.length : ℚ))))
    else score
  ratMin score 1

/-- Closed-form text bonus (`+0.4` / `+0.2` / `0`) with the *code's*
match semantics. -/
def textBonus (q : Quote) (tag : String) : ℚ :=
  if searchPattern (strLower q.quote).data (splitWords (strLower tag)) then Rat.divInt 2 5
  else if longWordHit (splitWords (strLower tag)) (strLower q.quote) then Rat.divInt 1 5
  else 0

/-- Closed-form text bonus with the *claim's* match semantics (words in
order, separating text unconstrained). -/
def textBonusClaimed (q : Quote) (tag : String) : ℚ :=
  if searchClaimed (strLower q.quote).data (splitWords (strLower tag)) then Rat.divInt 2 5
  else if longWordHit (splitWords (strLower tag)) (strLower q.quote) then Rat.divInt 1 5
  else 0

/-- The author-penalty factor (`0.5` on symmetric substring containment
of tag and lowercased author, else `1`). -/
def authorFactor (q : Quote) (tag : String) : ℚ :=
  if substr (strLower tag) (strLower q.author) || substr (strLower q.author) (strLower tag) then
    Rat.divInt 1 2
  else 1

/-- The position bonus `0.1 × (1 − position/len(list))`, applied only
when the tag occurs in the record's raw (lowercased) tag list. -/
def positionBonus (q : Quote) (tag : String) : ℚ :=
  let tagsList := q.tags.map strLower
  if strLower tag ∈ tagsList then
    qMul (Rat.divInt 1 10)
      (qSub 1 (qDiv (tagsList.indexOf (strLower tag) : ℚ) (tagsList.length : ℚ)))
  else 0

/-- The relevance formula exactly as the claim words it:
`min((0.5 + bonus) × authorFactor + positionBonus, 1)` with the claim's
match condition for the `0.4` bonus. -/
def relevanceClaimed (q : Quote) (tag : String) : ℚ :=
  ratMin
    (qAdd (qMul (qAdd (Rat.divInt 1 2) (textBonusClaimed q tag)) (authorFactor q tag))
      (positionBonus q tag)) 1

/-- The claim's formula amended to use the code's match condition (no
newline between the matched words). -/
def relevanceAmended (q : Quote) (tag : String) : ℚ :=
  ratMin
    (qAdd (qMul (qAdd (Rat.divInt 1 2) (textBonus q tag)) (authorFactor q tag))
      (positionBonus q tag)) 1

/-! ### Counters and tag frequencies (weight_tags.py) -/

/-- `counter[k] += 1` on an insertion-ordered association list
(`collections.Counter` semantics: the entry for an existing key is
updated in place, a missing key is created at the end with value 1). -/
def bump : List (String × ℕ) → String → List (String × ℕ)
  | [], k => [(k, 1)]
  | p :: rest, k => if p.1 = k then (p.1, p.2 + 1) :: rest else p :: bump rest k

/-- `counter[k]` with `Counter`'s default of `0` for a missing key. -/
def countGet : List (String × ℕ) → String → ℕ
  | [], _ => 0
  | p :: rest, k => if p.1 = k then p.2 else countGet rest k

/-- `collections.Counter(xs)`: counts in first-occurrence order. -/
def counterOf (xs : List String) : List (String × ℕ) := xs.foldl bump []

/-- `compute_tag_frequencies(quotes)` (weight_tags.py, lines 27-45):
select each record's tags, drop the denylist, count occurrences.  Note
there is no author filter here. -/
def computeTagFrequencies (quotes : List Quote) : List (String × ℕ) :=
  counterOf (quotes.foldl
    (fun acc q => acc ++ (selectTags q).filter (fun t => t ∉ EXCLUDED_TAGS)) [])

/-- `compute_corpus_frequency_score(tag_counts)` (weight_tags.py, lines
48-61), parameterised by the interpretation `logQ` of `math.log`:
`log(count+1)/log(max_count+1)`, empty table ↦ empty mapping. -/
def computeCorpusFrequencyScore (logQ : ℚ → ℚ) (tagCounts : List (String × ℕ)) :
    List (String × ℚ) :=
  match tagCounts with
  | [] => []
  | _ =>
    let maxCount := (tagCounts.map (fun p => p.2)).foldl max 0
    tagCounts.map fun p =>
      (p.1, qDiv (logQ (qAdd (p.2 : ℚ) 1)) (logQ (qAdd (maxCount : ℚ) 1)))

/-- `dict.get k default` on a `ℚ`-valued association list. -/
def rowGetD : List (String × ℚ) → String → ℚ → ℚ
  | [], _, d => d
  | p :: rest, k, d => if p.1 = k then p.2 else rowGetD rest k d

/-- `round(q + 1/2 down)`: the integer nearest to `q`, halves up.  Python's
`round` rounds float halves to even; exact halves never arise from this
pipeline's data in a way any claim depends on, and the same rounding
function is used on both sides of every equation below. -/
def qRound (q : ℚ) : ℤ := Int.fdiv (2 * q.num + (q.den : ℤ)) (2 * (q.den : ℤ))

/-- Python `round(x, 4)`. -/
def round4 (q : ℚ) : ℚ := Rat.divInt (qRound (qMul q 10000)) 10000

/-- Comparator for `weighted.sort(key=lambda x: x['weight'], reverse=True)`
(stable descending sort by weight). -/
def weightDescLe (a b : WeightedTag) : Bool := qLe b.weight a.weight

/-- `compute_weighted_tags(quotes)` (weight_tags.py, lines 105-162),
parameterised by the interpretations of `math.sqrt` and `math.log`. -/
def computeWeightedTags (sqrtQ logQ : ℚ → ℚ) (quotes : List Quote) : List Quote :=
  let tagCounts := computeTagFrequencies quotes
  let corpusScores := computeCorpusFrequencyScore logQ tagCounts
  quotes.map fun q =>
    let tags := selectTags q
    let weighted := (tags.filter (fun t => t ∉ EXCLUDED_TAGS)).map fun tag =>
      let corpusScore := rowGetD corpusScores tag (Rat.divInt 1 10)
      let relevance := computeQuoteRelevance q tag
      let weight := qMul (sqrtQ corpusScore) relevance
      WeightedTag.mk tag (round4 weight) (round4 corpusScore) (round4 relevance)
    { q with weighted_tags := some (weighted.mergeSort weightDescLe) }

/-! ### The co-occurrence aggregator (build_tag_connections.py) -/

/-- The author-collision filter of `build_cooccurrence_matrix` (line 198):
`[t for t in tags if t not in author and author not in t]`. -/
def authorFilter (author : String) (tags : List String) : List String :=
  tags.filter fun t => !(substr t author) && !(substr author t)

/-- Claim-side removal predicate: a tag is removed only when both the tag
and the author string are non-empty and one contains the other. -/
def authorRemovesClaimed (author t : String) : Bool :=
  t != "" && author != "" && (substr t author || substr author t)

/-- Claim-side author filter built from `authorRemovesClaimed`. -/
def authorFilterClaimed (author : String) (tags : List String) : List String :=
  tags.filter fun t => !(authorRemovesClaimed author t)

/-- The full per-record tag extraction of `build_cooccurrence_matrix`
(lines 189-198): select, drop denylisted tags, drop author collisions. -/
def filteredTags (q : Quote) : List String :=
  authorFilter (strLower q.author) ((selectTags q).filter (fun t => t ∉ EXCLUDED_TAGS))

/-- Nested counter table `{tag: Counter}` (`defaultdict(Counter)`). -/
abbrev CTable := List (String × List (String × ℕ))

/-- `cooccur[k][k2] += 1` with `defaultdict(Counter)` semantics (an
existing outer key is updated in place, a missing one is created at the
end). -/
def ccBump : CTable → String → String → CTable
  | [], k, k2 => [(k, bump [] k2)]
  | p :: rest, k, k2 =>
    if p.1 = k then (p.1, bump p.2 k2) :: rest else p :: ccBump rest k k2

/-- Stored co-occurrence count for `(a, b)` (0 when absent). -/
def ccGet : CTable → String → String → ℕ
  | [], _, _ => 0
  | p :: rest, a, b => if p.1 = a then countGet p.2 b else ccGet rest a b

/-- Inner pair loop: `for tag2 in tags[i+1:]`, bumping both directions. -/
def addPairsFor (m : CTable) (t1 : String) (rest : List String) : CTable :=
  rest.foldl (fun m t2 => ccBump (ccBump m t1 t2) t2 t1) m

/-- Outer pair loop: `for i, tag1 in enumerate(tags)`. -/
def addAllPairs : List String → CTable → CTable
  | [], m => m
  | t :: ts, m => addAllPairs ts (addPairsFor m t ts)

/-- `build_cooccurrence_matrix(quotes)` (lines 180-210): returns the
co-occurrence table and the per-tag counts. -/
def buildCooccurrenceMatrix (quotes : List Quote) : CTable × List (String × ℕ) :=
  quotes.foldl
    (fun acc q =>
      let tags := filteredTags q
      (addAllPairs tags acc.1, tags.foldl bump acc.2))
    ([], [])

/-- The co-occurrence table component. -/
def cooccurOf (quotes : List Quote) : CTable := (buildCooccurrenceMatrix quotes).1

/-- The per-tag count component (`tag_counts`). -/
def tagCountsOf (quotes : List Quote) : List (String × ℕ) := (buildCooccurrenceMatrix quotes).2

/-! ### `ℚ`-valued dict-of-dict tables -/

/-- A `{tag: score}` Python dict, insertion-ordered. -/
abbrev Row := List (String × ℚ)

/-- A `{tag: {tag: score}}` Python dict, insertion-ordered. -/
abbrev Table := List (String × Row)

/-- `row[k] = v`: overwrite in place, or append a new key. -/
def rowSet : Row → String → ℚ → Row
  | [], k, v => [(k, v)]
  | p :: rest, k, v => if p.1 = k then (p.1, v) :: rest else p :: rowSet rest k v

/-- `row.get(k)` (`none` when absent). -/
def rowGet? : Row → String → Option ℚ
  | [], _ => none
  | p :: rest, k => if p.1 = k then some p.2 else rowGet? rest k

/-- `k in table`. -/
def tblHas (m : Table) (k : String) : Bool := m.any (fun p => p.1 = k)

/-- `table[k]` read as in a `defaultdict(dict)` (missing key reads as
the empty dict; no creation is observable through lookups). -/
def tblGet : Table → String → Row
  | [], _ => []
  | p :: rest, k => if p.1 = k then p.2 else tblGet rest k

/-- `table[k][k2] = v` with `defaultdict(dict)` semantics (an existing
outer key is updated in place, a missing one is created at the end). -/
def tblSet2 : Table → String → String → ℚ → Table
  | [], k, k2, v => [(k, rowSet [] k2 v)]
  | p :: rest, k, k2, v =>
    if p.1 = k then (p.1, rowSet p.2 k2 v) :: rest else p :: tblSet2 rest k k2 v

/-- `table[k][k2]` as an optional value. -/
def getInTbl (m : Table) (k k2 : String) : Option ℚ := rowGet? (tblGet m k) k2
/-- `MANUAL_CONNECTIONS` (build_tag_connections.py, lines 26-126), in
source order; scores are exact tenths. -/
def MANUAL_CONNECTIONS : List (String × List (String × ℚ)) := [
  ("architecture", [("design", Rat.divInt 42 10), ("cities", Rat.divInt 40 10), ("art", Rat.divInt 35 10), ("civilisation", Rat.divInt 32 10), ("making", Rat.divInt 29 10)]),
  ("attitude", [("perspective", Rat.divInt 40 10), ("opinion", Rat.divInt 38 10), ("values", Rat.divInt 35 10), ("the self", Rat.divInt 32 10)]),
  ("australia", [("travel", Rat.divInt 40 10), ("adventure", Rat.divInt 38 10), ("nature", Rat.divInt 35 10), ("the world", Rat.divInt 30 10)]),
  ("calmness", [("patience", Rat.divInt 42 10), ("acceptance", Rat.divInt 38 10), ("the mind", Rat.divInt 32 10), ("wisdom", Rat.divInt 29 10)]),
  ("complexity", [("simplicity", Rat.divInt 42 10), ("order", Rat.divInt 38 10), ("chaos", Rat.divInt 35 10), ("understanding", Rat.divInt 32 10), ("science", Rat.divInt 28 10)]),
  ("consumption", [("capitalism", Rat.divInt 42 10), ("modernity", Rat.divInt 38 10), ("desire", Rat.divInt 35 10), ("society", Rat.divInt 30 10)]),
  ("danger", [("fear", Rat.divInt 40 10), ("destruction", Rat.divInt 38 10), ("violence", Rat.divInt 35 10), ("adventure", Rat.divInt 32 10), ("chaos", Rat.divInt 30 10)]),
  ("depth", [("understanding", Rat.divInt 40 10), ("perception", Rat.divInt 38 10), ("the mind", Rat.divInt 35 10), ("seeing", Rat.divInt 30 10)]),
  ("ethics", [("values", Rat.divInt 42 10), ("good", Rat.divInt 40 10), ("honesty", Rat.divInt 38 10), ("truth", Rat.divInt 35 10), ("philosophy", Rat.divInt 32 10)]),
  ("freedom", [("anarchy", Rat.divInt 42 10), ("rebellion", Rat.divInt 40 10), ("individuality", Rat.divInt 38 10), ("power", Rat.divInt 35 10), ("authority", Rat.divInt 32 10)]),
  ("gratitude", [("happiness", Rat.divInt 40 10), ("acceptance", Rat.divInt 35 10), ("wisdom", Rat.divInt 30 10), ("life", Rat.divInt 28 10)]),
  ("heaven", [("hell", Rat.divInt 42 10), ("god", Rat.divInt 40 10), ("religion", Rat.divInt 38 10), ("faith", Rat.divInt 35 10), ("death", Rat.divInt 32 10)]),
  ("improvement", [("progress", Rat.divInt 42 10), ("learning", Rat.divInt 38 10), ("change", Rat.divInt 35 10), ("process", Rat.divInt 32 10)]),
  ("logic", [("mathematics", Rat.divInt 42 10), ("thinking", Rat.divInt 38 10), ("science", Rat.divInt 35 10), ("philosophy", Rat.divInt 32 10), ("truth", Rat.divInt 30 10)]),
  ("luck", [("chance", Rat.divInt 42 10), ("gambling", Rat.divInt 40 10), ("serendipity", Rat.divInt 38 10), ("odds", Rat.divInt 35 10), ("uncertainty", Rat.divInt 30 10)]),
  ("museums", [("collecting", Rat.divInt 42 10), ("art", Rat.divInt 40 10), ("culture", Rat.divInt 38 10), ("libraries", Rat.divInt 35 10), ("memory", Rat.divInt 32 10)]),
  ("play", [("childhood", Rat.divInt 42 10), ("imagination", Rat.divInt 38 10), ("creativity", Rat.divInt 35 10), ("freedom", Rat.divInt 30 10)]),
  ("prediction", [("the future", Rat.divInt 42 10), ("uncertainty", Rat.divInt 38 10), ("odds", Rat.divInt 35 10), ("science", Rat.divInt 32 10)]),
  ("problems", [("problem solving", Rat.divInt 42 10), ("difficulty", Rat.divInt 40 10), ("thinking", Rat.divInt 32 10), ("understanding", Rat.divInt 28 10)]),
  ("property", [("ownership", Rat.divInt 42 10), ("laws", Rat.divInt 38 10), ("capitalism", Rat.divInt 35 10), ("society", Rat.divInt 30 10)]),
  ("simplification", [("simplicity", Rat.divInt 42 10), ("complexity", Rat.divInt 38 10), ("clarity", Rat.divInt 35 10), ("design", Rat.divInt 32 10)]),
  ("success", [("failure", Rat.divInt 42 10), ("ambition", Rat.divInt 40 10), ("money", Rat.divInt 35 10), ("work", Rat.divInt 32 10)]),
  ("the sea", [("nature", Rat.divInt 40 10), ("travel", Rat.divInt 38 10), ("adventure", Rat.divInt 35 10), ("the world", Rat.divInt 32 10), ("walking", Rat.divInt 30 10)]),
  ("uniqueness", [("individuality", Rat.divInt 42 10), ("originality", Rat.divInt 40 10), ("the self", Rat.divInt 35 10), ("creativity", Rat.divInt 30 10)]),
  ("acceptance", [("calmness", Rat.divInt 40 10), ("patience", Rat.divInt 38 10), ("wisdom", Rat.divInt 35 10), ("change", Rat.divInt 30 10)]),
  ("beauty", [("wonder", Rat.divInt 40 10), ("nature", Rat.divInt 38 10), ("seeing", Rat.divInt 35 10), ("perception", Rat.divInt 32 10)]),
  ("economics", [("money", Rat.divInt 42 10), ("consumption", Rat.divInt 38 10), ("property", Rat.divInt 35 10), ("society", Rat.divInt 30 10)]),
  ("failure", [("success", Rat.divInt 42 10), ("learning", Rat.divInt 35 10), ("doubt", Rat.divInt 30 10)]),
  ("gambling", [("luck", Rat.divInt 42 10), ("chance", Rat.divInt 40 10), ("uncertainty", Rat.divInt 35 10)]),
  ("garbage", [("decay", Rat.divInt 40 10), ("consumption", Rat.divInt 38 10), ("modernity", Rat.divInt 32 10)]),
  ("good", [("values", Rat.divInt 40 10), ("ethics", Rat.divInt 38 10), ("truth", Rat.divInt 35 10)]),
  ("information", [("knowledge", Rat.divInt 40 10), ("media", Rat.divInt 38 10), ("technology", Rat.divInt 35 10), ("truth", Rat.divInt 30 10)]),
  ("interpretation", [("meaning", Rat.divInt 40 10), ("narrative", Rat.divInt 38 10), ("understanding", Rat.divInt 35 10), ("reading", Rat.divInt 32 10)]),
  ("laws", [("government", Rat.divInt 40 10), ("authority", Rat.divInt 38 10), ("order", Rat.divInt 35 10), ("power", Rat.divInt 32 10)]),
  ("mathematics", [("logic", Rat.divInt 42 10), ("science", Rat.divInt 38 10), ("order", Rat.divInt 32 10)]),
  ("movement", [("walking", Rat.divInt 40 10), ("wandering", Rat.divInt 38 10), ("action", Rat.divInt 35 10), ("direction", Rat.divInt 32 10)]),
  ("narrative", [("stories", Rat.divInt 42 10), ("interpretation", Rat.divInt 38 10), ("meaning", Rat.divInt 35 10), ("literature", Rat.divInt 32 10)]),
  ("ownership", [("property", Rat.divInt 42 10), ("capitalism", Rat.divInt 35 10), ("freedom", Rat.divInt 32 10), ("power", Rat.divInt 30 10)]),
  ("pleasure", [("satisfaction", Rat.divInt 42 10), ("happiness", Rat.divInt 40 10), ("comfort", Rat.divInt 38 10), ("desire", Rat.divInt 35 10)]),
  ("politics", [("government", Rat.divInt 42 10), ("power", Rat.divInt 40 10), ("authority", Rat.divInt 38 10), ("society", Rat.divInt 32 10)]),
  ("process", [("making", Rat.divInt 40 10), ("doing", Rat.divInt 38 10), ("work", Rat.divInt 35 10), ("design", Rat.divInt 30 10)]),
  ("satisfaction", [("pleasure", Rat.divInt 42 10), ("happiness", Rat.divInt 40 10), ("comfort", Rat.divInt 35 10)]),
  ("spirit", [("faith", Rat.divInt 40 10), ("the self", Rat.divInt 38 10), ("religion", Rat.divInt 35 10), ("freedom", Rat.divInt 30 10)]),
  ("talking", [("speaking", Rat.divInt 42 10), ("language", Rat.divInt 40 10), ("words", Rat.divInt 38 10)]),
  ("torture", [("suffering", Rat.divInt 42 10), ("pain", Rat.divInt 40 10), ("violence", Rat.divInt 38 10), ("evil", Rat.divInt 35 10)]),
  ("travel", [("adventure", Rat.divInt 42 10), ("wandering", Rat.divInt 38 10), ("walking", Rat.divInt 35 10), ("the world", Rat.divInt 32 10), ("discovery", Rat.divInt 30 10)]),
  ("wit", [("humour", Rat.divInt 42 10), ("words", Rat.divInt 38 10), ("language", Rat.divInt 35 10), ("intelligence", Rat.divInt 30 10)]),
  ("adventure", [("travel", Rat.divInt 40 10), ("discovery", Rat.divInt 38 10), ("the unknown", Rat.divInt 35 10), ("danger", Rat.divInt 32 10)]),
  ("age", [("time", Rat.divInt 40 10), ("memory", Rat.divInt 38 10), ("wisdom", Rat.divInt 35 10), ("death", Rat.divInt 32 10)]),
  ("certainty", [("faith", Rat.divInt 40 10), ("truth", Rat.divInt 38 10), ("belief", Rat.divInt 35 10), ("knowledge", Rat.divInt 32 10)]),
  ("chaos", [("entropy", Rat.divInt 40 10), ("destruction", Rat.divInt 38 10), ("the end", Rat.divInt 35 10), ("danger", Rat.divInt 32 10)]),
  ("childhood", [("play", Rat.divInt 40 10), ("education", Rat.divInt 38 10), ("memory", Rat.divInt 35 10), ("age", Rat.divInt 32 10)]),
  ("civilisation", [("culture", Rat.divInt 42 10), ("history", Rat.divInt 40 10), ("cities", Rat.divInt 38 10), ("progress", Rat.divInt 35 10), ("architecture", Rat.divInt 32 10)]),
  ("collaboration", [("process", Rat.divInt 40 10), ("making", Rat.divInt 38 10), ("ideas", Rat.divInt 35 10)]),
  ("comfort", [("calmness", Rat.divInt 40 10), ("pleasure", Rat.divInt 38 10), ("satisfaction", Rat.divInt 35 10)]),
  ("disaster", [("destruction", Rat.divInt 42 10), ("chaos", Rat.divInt 40 10), ("doom", Rat.divInt 38 10), ("the end", Rat.divInt 35 10), ("danger", Rat.divInt 32 10)]),
  ("doing", [("making", Rat.divInt 40 10), ("process", Rat.divInt 38 10), ("work", Rat.divInt 35 10), ("living", Rat.divInt 32 10)]),
  ("dreams", [("imagination", Rat.divInt 40 10), ("nighttime", Rat.divInt 38 10), ("the unknown", Rat.divInt 35 10), ("consciousness", Rat.divInt 32 10)]),
  ("emotion", [("sadness", Rat.divInt 40 10), ("the mind", Rat.divInt 38 10), ("love", Rat.divInt 35 10), ("pain", Rat.divInt 32 10)]),
  ("entropy", [("chaos", Rat.divInt 42 10), ("destruction", Rat.divInt 38 10), ("doom", Rat.divInt 35 10), ("time", Rat.divInt 32 10)]),
  ("expression", [("art", Rat.divInt 40 10), ("language", Rat.divInt 38 10), ("creativity", Rat.divInt 35 10)]),
  ("jobs", [("labour", Rat.divInt 42 10), ("money", Rat.divInt 35 10), ("capitalism", Rat.divInt 32 10), ("purpose", Rat.divInt 30 10)]),
  ("monsters", [("fear", Rat.divInt 40 10), ("the devil", Rat.divInt 38 10), ("hell", Rat.divInt 35 10), ("violence", Rat.divInt 30 10)]),
  ("music", [("culture", Rat.divInt 40 10), ("art", Rat.divInt 38 10), ("poetry", Rat.divInt 35 10), ("beauty", Rat.divInt 32 10)]),
  ("nighttime", [("dreams", Rat.divInt 40 10), ("the unknown", Rat.divInt 35 10), ("fear", Rat.divInt 32 10), ("death", Rat.divInt 28 10)]),
  ("odds", [("chance", Rat.divInt 42 10), ("luck", Rat.divInt 40 10), ("uncertainty", Rat.divInt 38 10), ("prediction", Rat.divInt 35 10)]),
  ("originality", [("the new", Rat.divInt 42 10), ("invention", Rat.divInt 40 10), ("uniqueness", Rat.divInt 38 10), ("ideas", Rat.divInt 35 10)]),
  ("pain", [("torture", Rat.divInt 38 10), ("emotion", Rat.divInt 35 10), ("living", Rat.divInt 32 10), ("death", Rat.divInt 30 10)]),
  ("painting", [("seeing", Rat.divInt 42 10), ("vision", Rat.divInt 40 10), ("beauty", Rat.divInt 38 10), ("design", Rat.divInt 32 10)]),
  ("perfection", [("simplicity", Rat.divInt 40 10), ("beauty", Rat.divInt 38 10), ("making", Rat.divInt 32 10)]),
  ("revolution", [("anarchy", Rat.divInt 42 10), ("power", Rat.divInt 40 10), ("freedom", Rat.divInt 38 10), ("politics", Rat.divInt 35 10), ("violence", Rat.divInt 32 10)]),
  ("sadness", [("suffering", Rat.divInt 40 10), ("pain", Rat.divInt 38 10), ("emotion", Rat.divInt 35 10), ("death", Rat.divInt 32 10)]),
  ("looking", [("art", Rat.divInt 38 10), ("wonder", Rat.divInt 35 10), ("creativity", Rat.divInt 32 10)]),
  ("vision", [("art", Rat.divInt 40 10), ("creativity", Rat.divInt 35 10), ("wonder", Rat.divInt 32 10)]),
  ("wonder", [("art", Rat.divInt 38 10), ("seeing", Rat.divInt 35 10), ("looking", Rat.divInt 32 10), ("creativity", Rat.divInt 30 10)]),
  ("the senses", [("seeing", Rat.divInt 40 10), ("perception", Rat.divInt 38 10), ("looking", Rat.divInt 35 10), ("art", Rat.divInt 32 10), ("experience", Rat.divInt 30 10)]),
  ("eyes", [("looking", Rat.divInt 42 10), ("vision", Rat.divInt 40 10), ("wonder", Rat.divInt 35 10)]),
  ("philosophy", [("thinking", Rat.divInt 40 10), ("the mind", Rat.divInt 38 10), ("consciousness", Rat.divInt 35 10), ("knowledge", Rat.divInt 32 10)]),
  ("consciousness", [("the mind", Rat.divInt 40 10), ("the brain", Rat.divInt 38 10), ("philosophy", Rat.divInt 35 10)]),
  ("the mind", [("consciousness", Rat.divInt 40 10), ("philosophy", Rat.divInt 35 10)]),
  ("poetry", [("writing", Rat.divInt 40 10), ("literature", Rat.divInt 38 10), ("language", Rat.divInt 35 10)]),
  ("reading", [("writing", Rat.divInt 38 10), ("language", Rat.divInt 35 10)]),
  ("darkness", [("doom", Rat.divInt 38 10), ("destruction", Rat.divInt 35 10), ("death", Rat.divInt 32 10), ("evil", Rat.divInt 30 10)]),
  ("earth", [("the world", Rat.divInt 40 10), ("the sea", Rat.divInt 35 10), ("walking", Rat.divInt 30 10)])
]

/-- `ALLOWED_PRIMARY_TAGS` (build_tag_connections.py, lines 130-172).
The source is a Python set literal and only membership is ever used, so
the list order here is immaterial. -/
def ALLOWED_PRIMARY_TAGS : List String := [
  "darkness", "difficulty", "the end", "earth", "ownership", "ageing", "science", "talking",
  "facts", "pessimism", "learning", "simplification", "property", "painting", "expectations",
  "process", "calmness", "clarity", "curiosity", "travel", "weakness", "disaster", "love",
  "artists", "complexity", "patience", "poetry", "looking", "understanding", "anarchy", "making",
  "uniqueness", "eschatology", "comfort", "experience", "bureaucracy", "the mind", "the future",
  "heaven", "literature", "problem solving", "stupidity", "technology", "hell", "mankind",
  "certainty", "decay", "labour", "laws", "dying", "society", "doubt", "authority", "insanity",
  "politics", "action", "australia", "quotes", "good", "chaos", "aim", "the new", "philosophy",
  "war", "destruction", "books", "culture", "mistakes", "revolution", "lying", "pain",
  "satisfaction", "libraries", "religion", "dreams", "end times", "age", "education", "freedom",
  "play", "progress", "luck", "doom", "perfection", "truth", "the devil", "monsters",
  "perspective", "media", "improvement", "attitude", "ruin", "suffering", "definition", "honesty",
  "writing", "ideas", "ignorance", "serendipity", "time", "torture", "uncertainty", "belief",
  "mathematics", "violence", "collapse", "chance", "control", "desire", "opinion", "humans",
  "originality", "power", "rules", "adventure", "discovery", "birth", "danger", "faith", "god",
  "nature", "death", "change", "evil", "purpose", "design", "entropy", "fire", "garbage",
  "museums", "living", "why", "wandering", "the present", "the sea", "interpretation", "vision",
  "the world", "gambling", "pleasure", "knowledge", "seeing", "humankind", "devils",
  "individuality", "evolution", "failure", "songs", "jobs", "childhood", "psychology",
  "consumption", "kings", "music", "doing", "civilisation", "machines", "emotion", "reality",
  "liars", "storytelling", "success", "humour", "odds", "ethics", "expression", "humanity",
  "logic", "speaking", "the unknown", "narrative", "thinking", "utopia", "wit", "stories",
  "views", "ambition", "the senses", "meaning", "words", "the brain", "invention", "falsehood",
  "government", "eyes", "work", "connections", "acceptance", "nighttime", "memory", "the self",
  "fear", "existence", "america", "sadness", "banality", "poems", "thought", "art", "economics",
  "direction", "madness", "language", "problems", "rebellion", "depth", "imagination", "paths",
  "values", "simplicity", "consciousness", "reading", "intelligence", "humility", "creativity",
  "information", "prediction", "history", "collaboration", "the past", "life", "beauty", "order",
  "wisdom", "perception", "spirit", "happiness", "money", "capitalism", "movement", "modernity",
  "children", "wonder", "cities", "architecture", "gratitude", "error", "walking", "collecting"
]
/-! ### Manual connections: expansion to bidirectional form -/

/-- One iteration of the inner loop of `expand_manual_connections`
(lines 264-270): the unconditional forward write
`bidir[tag][target] = score`, then the guarded mirror write
`if target not in bidir or tag not in bidir[target]:
bidir[target][tag] = score`, all under the vocabulary test. -/
def expandStep (bidir : Table) (tag target : String) (score : ℚ) : Table :=
  if target ∈ ALLOWED_PRIMARY_TAGS ∧ tag ∈ ALLOWED_PRIMARY_TAGS then
    let b1 := tblSet2 bidir tag target score
    if !(tblHas b1 target) || (getInTbl b1 target tag).isNone then tblSet2 b1 target tag score
    else b1
  else bidir

/-- Processing of one `for tag, targets in MANUAL_CONNECTIONS.items()`
iteration: the inner loop over `targets.items()`. -/
def expandRow (bidir : Table) (row : String × Row) : Table :=
  row.2.foldl (fun b p => expandStep b row.1 p.1 p.2) bidir

/-- `expand_manual_connections` over an arbitrary table. -/
def expandManualTable (tbl : Table) : Table := tbl.foldl expandRow []

/-- `expand_manual_connections()` (lines 258-271). -/
def expandManualConnections : Table := expandManualTable MANUAL_CONNECTIONS

/-! ### PMI similarity and the connection assembler -/

/-- Decidable `a < b` on `ℚ` by cross-multiplication. -/
def qLt (a b : ℚ) : Bool := decide (a.num * b.den < b.num * a.den)

/-- `compute_tag_similarity(cooccur, tag_counts)` (lines 213-255),
parameterised by the interpretation `logQ` of `math.log`.  The float
constant `0.001` is the exact `1/1000`. -/
def computeTagSimilarity (logQ : ℚ → ℚ) (cooccur : CTable)
    (tagCounts : List (String × ℕ)) : Table :=
  let total : ℚ := qDiv ((((tagCounts.map (fun p => p.2)).sum : ℕ) : ℤ) : ℚ) 2
  cooccur.foldl
    (fun sims row =>
      if countGet tagCounts row.1 < 3 then sims
      else
        row.2.foldl
          (fun sims p =>
            if countGet tagCounts p.1 < 3 then sims
            else if p.2 < 2 then sims
            else
              let pTag1 := qDiv (countGet tagCounts row.1 : ℚ) total
              let pTag2 := qDiv (countGet tagCounts p.1 : ℚ) total
              let pBoth := qDiv (p.2 : ℚ) total
              let pmi :=
                if qLt 0 (qMul pTag1 pTag2) then
                  logQ (qAdd (qDiv pBoth (qMul pTag1 pTag2)) (Rat.divInt 1 1000))
                else 0
              let score := qMul pmi (logQ (qAdd (p.2 : ℚ) 1))
              if qLt 0 score then tblSet2 sims row.1 p.1 (round4 score) else sims)
          sims)
    []

/-- The similarity table the connection assembler consumes. -/
def similaritiesOf (logQ : ℚ → ℚ) (quotes : List Quote) : Table :=
  computeTagSimilarity logQ (buildCooccurrenceMatrix quotes).1 (buildCooccurrenceMatrix quotes).2

/-- One iteration of `for other_tag, score in similarities[tag].items():
if other_tag in ALLOWED_PRIMARY_TAGS: related[other_tag] = score`. -/
def relatedStep (r : Row) (p : String × ℚ) : Row :=
  if p.1 ∈ ALLOWED_PRIMARY_TAGS then rowSet r p.1 p.2 else r

/-- One iteration of `for other_tag, mscore in manual[tag].items():
if other_tag not in related: related[other_tag] = mscore`. -/
def manualStep (r : Row) (p : String × ℚ) : Row :=
  if (rowGet? r p.1).isNone then rowSet r p.1 p.2 else r

/-- The `related` dict of `build_tag_connections` for one tag (lines
299-310): computed similarities restricted to the allowed vocabulary,
then manual scores for partners not already present. -/
def relatedMap (sims manual : Table) (tag : String) : Row :=
  let r1 := (tblGet sims tag).foldl relatedStep []
  (tblGet manual tag).foldl manualStep r1

/-- Comparator for `related_list.sort(key=lambda x: x['score'],
reverse=True)`. -/
def scoreDescLe (a b : String × ℚ) : Bool := qLe b.2 a.2

/-- `build_tag_connections(quotes)` (lines 274-321): an entry per tag
with count ≥ 3 in the allowed vocabulary, carrying the sorted, truncated
related list and the tag's quote count. -/
def buildTagConnections (logQ : ℚ → ℚ) (quotes : List Quote) :
    List (String × (Row × ℕ)) :=
  let cm := buildCooccurrenceMatrix quotes
  let sims := computeTagSimilarity logQ cm.1 cm.2
  let manual := expandManualConnections
  cm.2.foldl
    (fun conns pc =>
      if pc.2 < 3 then conns
      else if pc.1 ∉ ALLOWED_PRIMARY_TAGS then conns
      else
        let related := relatedMap sims manual pc.1
        conns ++ [(pc.1, ((related.mergeSort scoreDescLe).take 15, pc.2))])
    []

/-! ## Lemmas

### Bridges from the executable wrappers to `ℚ`'s field structure -/

/-- The three-record corpus for the C1 counterexample: every record is
tagged `architecture` only, so that tag reaches count 3 while its manual
partners (`design`, `cities`, ...) have corpus count 0. -/
def archCorpus : List Quote :=
  [{ quote := "q", author := "zz", tags := ["architecture"], weighted_tags := none },
    { quote := "q", author := "zz", tags := ["architecture"], weighted_tags := none },
    { quote := "q", author := "zz", tags := ["architecture"], weighted_tags := none }]

/-- The related row `build_tag_connections` emits for `architecture` on
`archCorpus`: exactly the manual partners, already sorted by score. -/
def archRel : Row :=
  [("design", Rat.divInt 21 5), ("cities", (4 : ℚ)), ("art", Rat.divInt 7 2),
    ("civilisation", Rat.divInt 16 5), ("making", Rat.divInt 29 10)]

/-- Three records tagged `banality, bureaucracy`: both tags reach count 3
and co-occur 3 times, so each gets a computed similarity score. -/
def bbCorpus : List Quote :=
  [{ quote := "q", author := "zz", tags := ["banality", "bureaucracy"], weighted_tags := none },
    { quote := "q", author := "zz", tags := ["banality", "bureaucracy"], weighted_tags := none },
    { quote := "q", author := "zz", tags := ["banality", "bureaucracy"], weighted_tags := none }]

theorem qAdd_eq (a b : ℚ) : qAdd a b = a + b := by
  rw [qAdd]
  conv_rhs => rw [← Rat.num_divInt_den a, ← Rat.num_divInt_den b]
  rw [Rat.divInt_add_divInt _ _ (Int.natCast_ne_zero.mpr a.den_nz)
    (Int.natCast_ne_zero.mpr b.den_nz)]

theorem qMul_eq (a b : ℚ) : qMul a b = a * b := by
  rw [qMul]
  conv_rhs => rw [← Rat.num_divInt_den a, ← Rat.num_divInt_den b]
  rw [Rat.divInt_mul_divInt']

theorem qSub_eq (a b : ℚ) : qSub a b = a - b := by
  rw [qSub]
  conv_rhs => rw [← Rat.num_divInt_den a, ← Rat.num_divInt_den b]
  rw [Rat.divInt_sub_divInt _ _ (Int.natCast_ne_zero.mpr a.den_nz)
    (Int.natCast_ne_zero.mpr b.den_nz)]

theorem qDiv_eq (a b : ℚ) : qDiv a b = a / b := by
  rw [qDiv]
  conv_rhs => rw [← Rat.num_divInt_den a, ← Rat.num_divInt_den b]
  rw [Rat.divInt_div_divInt]

theorem qLe_iff (a b : ℚ) : qLe a b = true ↔ a ≤ b := by
  rw [qLe, decide_eq_true_iff,
    ← Rat.divInt_le_divInt (b := (a.den : ℤ)) (d := (b.den : ℤ))
      (Int.natCast_pos.mpr a.pos) (Int.natCast_pos.mpr b.pos),
    Rat.num_divInt_den, Rat.num_divInt_den]

theorem ratMin_eq (a b : ℚ) : ratMin a b = min a b := by
  rw [ratMin, min_def, Bool.cond_eq_ite]
  by_cases h : a ≤ b
  · rw [if_pos ((qLe_iff a b).mpr h), if_pos h]
  · rw [if_neg (fun hq => h ((qLe_iff a b).mp hq)), if_neg h]

/-! ### Pointwise behaviour of the association-list operations -/

theorem countGet_bump (m : List (String × ℕ)) (k x : String) :
    countGet (bump m k) x = countGet m x + (if x = k then 1 else 0) := by
  induction m with
  | nil =>
    simp only [bump, countGet]
    by_cases h : x = k
    · simp [h]
    · have h' : ¬k = x := fun hh => h hh.symm
      simp [h, h']
  | cons p rest ih =>
    obtain ⟨a, b⟩ := p
    simp only [bump, countGet]
    by_cases hak : a = k
    · subst hak
      by_cases hax : a = x
      · subst hax; simp [countGet]
      · have h' : ¬x = a := fun hh => hax hh.symm
        simp [countGet, hax, h']
    · by_cases hax : a = x
      · subst hax
        simp [countGet, hak]
      · simp [countGet, hak, hax, ih]

theorem rowGet?_rowSet (r : Row) (k : String) (v : ℚ) (x : String) :
    rowGet? (rowSet r k v) x = if x = k then some v else rowGet? r x := by
  induction r with
  | nil =>
    simp only [rowSet, rowGet?]
    by_cases h : x = k
    · simp [h]
    · have h' : ¬k = x := fun hh => h hh.symm
      simp [h, h']
  | cons p rest ih =>
    obtain ⟨a, b⟩ := p
    simp only [rowSet, rowGet?]
    by_cases hak : a = k
    · subst hak
      by_cases hax : a = x
      · subst hax; simp [rowGet?]
      · have h' : ¬x = a := fun hh => hax hh.symm
        simp [rowGet?, hax, h']
    · by_cases hax : a = x
      · subst hax
        simp [rowGet?, hak]
      · simp [rowGet?, hak, hax, ih]

theorem tblGet_tblSet2 (m : Table) (k k2 : String) (v : ℚ) (x : String) :
    tblGet (tblSet2 m k k2 v) x =
      if x = k then rowSet (tblGet m k) k2 v else tblGet m x := by
  induction m with
  | nil =>
    simp only [tblSet2, tblGet]
    by_cases h : x = k
    · simp [h]
    · have h' : ¬k = x := fun hh => h hh.symm
      simp [h, h']
  | cons p rest ih =>
    obtain ⟨a, b⟩ := p
    simp only [tblSet2, tblGet]
    by_cases hak : a = k
    · subst hak
      by_cases hax : a = x
      · subst hax; simp [tblGet]
      · have h' : ¬x = a := fun hh => hax hh.symm
        simp [tblGet, hax, h']
    · by_cases hax : a = x
      · subst hax
        simp [tblGet, hak]
      · simp [tblGet, hak, hax, ih]

theorem getInTbl_tblSet2 (m : Table) (k k2 : String) (v : ℚ) (x y : String) :
    getInTbl (tblSet2 m k k2 v) x y =
      if x = k ∧ y = k2 then some v else getInTbl m x y := by
  rw [getInTbl, getInTbl, tblGet_tblSet2]
  by_cases hx : x = k
  · rw [if_pos hx, rowGet?_rowSet]
    by_cases hy : y = k2
    · rw [if_pos hy, if_pos ⟨hx, hy⟩]
    · rw [if_neg hy, if_neg (fun h => hy h.2), hx]
  · rw [if_neg hx, if_neg (fun h => hx h.1)]

/-! ### Basic option/row facts -/

theorem rowGet?_isSome_of_mem {r : Row} {k : String} {v : ℚ} (h : (k, v) ∈ r) :
    (rowGet? r k).isSome := by
  induction r with
  | nil => cases h
  | cons p rest ih =>
    rcases List.mem_cons.mp h with h1 | h1
    · rw [rowGet?, if_pos (by rw [← h1])]
      rfl
    · rw [rowGet?]
      by_cases hp : p.1 = k
      · rw [if_pos hp]; rfl
      · rw [if_neg hp]; exact ih h1

theorem rowGet?_eq_of_mem {r : Row} {k : String} {v : ℚ}
    (hnd : (r.map Prod.fst).Nodup) (h : (k, v) ∈ r) : rowGet? r k = some v := by
  induction r with
  | nil => cases h
  | cons p rest ih =>
    rw [List.map_cons, List.nodup_cons] at hnd
    rcases List.mem_cons.mp h with h1 | h1
    · rw [rowGet?, if_pos (by rw [← h1]), ← h1]
    · rw [rowGet?]
      by_cases hp : p.1 = k
      · exfalso
        exact hnd.1 (hp ▸ (List.mem_map.mpr ⟨(k, v), h1, rfl⟩))
      · rw [if_neg hp]; exact ih hnd.2 h1

theorem mem_of_rowGet?_eq {r : Row} {k : String} {v : ℚ}
    (h : rowGet? r k = some v) : (k, v) ∈ r := by
  induction r with
  | nil => simp [rowGet?] at h
  | cons p rest ih =>
    rw [rowGet?] at h
    by_cases hp : p.1 = k
    · rw [if_pos hp] at h
      exact List.mem_cons.mpr (Or.inl (by cases p; cases h; cases hp; rfl))
    · rw [if_neg hp] at h
      exact List.mem_cons.mpr (Or.inr (ih h))

theorem tblGet_of_not_has {m : Table} {k : String} (h : tblHas m k = false) :
    tblGet m k = [] := by
  induction m with
  | nil => rfl
  | cons p rest ih =>
    rw [tblHas] at h
    simp only [List.any_cons, Bool.or_eq_false_iff] at h
    rw [tblGet, if_neg (by simpa using h.1)]
    exact ih (by rw [tblHas]; exact h.2)

theorem tblHas_of_isSome {m : Table} {x y : String}
    (h : (getInTbl m x y).isSome) : tblHas m x = true := by
  by_cases hh : tblHas m x = true
  · exact hh
  · exfalso
    rw [getInTbl, tblGet_of_not_has (Bool.not_eq_true _ ▸ hh), rowGet?] at h
    cases h

/-! ### Behaviour of one expansion step -/

theorem expandStep_not_allowed {tag target : String} (b : Table) (v : ℚ)
    (h : ¬(target ∈ ALLOWED_PRIMARY_TAGS ∧ tag ∈ ALLOWED_PRIMARY_TAGS)) :
    expandStep b tag target v = b := by
  rw [expandStep, if_neg h]

theorem expandStep_self (b : Table) (tag target : String) (v : ℚ)
    (ht : tag ∈ ALLOWED_PRIMARY_TAGS) (h2 : target ∈ ALLOWED_PRIMARY_TAGS) :
    getInTbl (expandStep b tag target v) tag target = some v := by
  simp only [expandStep, if_pos (And.intro h2 ht)]
  by_cases hc : (!(tblHas (tblSet2 b tag target v) target)
      || (getInTbl (tblSet2 b tag target v) target tag).isNone) = true
  · rw [if_pos hc, getInTbl_tblSet2]
    by_cases he : tag = target ∧ target = tag
    · rw [if_pos he]
    · rw [if_neg he, getInTbl_tblSet2, if_pos ⟨rfl, rfl⟩]
  · rw [if_neg hc, getInTbl_tblSet2, if_pos ⟨rfl, rfl⟩]

theorem expandStep_preserve {b : Table} {x y : String} {s : ℚ}
    (tag target : String) (v : ℚ) (hxy : ¬(x = tag ∧ y = target))
    (h : getInTbl b x y = some s) :
    getInTbl (expandStep b tag target v) x y = some s := by
  rw [expandStep]
  by_cases ha : target ∈ ALLOWED_PRIMARY_TAGS ∧ tag ∈ ALLOWED_PRIMARY_TAGS
  · rw [if_pos ha]
    simp only []
    have hb1 : getInTbl (tblSet2 b tag target v) x y = some s := by
      rw [getInTbl_tblSet2, if_neg hxy]; exact h
    by_cases hc : (!(tblHas (tblSet2 b tag target v) target)
        || (getInTbl (tblSet2 b tag target v) target tag).isNone) = true
    · rw [if_pos hc, getInTbl_tblSet2]
      by_cases he : x = target ∧ y = tag
      · exfalso
        obtain ⟨hx, hy⟩ := he
        rw [hx, hy] at hb1
        have hsome : (getInTbl (tblSet2 b tag target v) target tag).isSome := by
          rw [hb1]; rfl
        rcases (Bool.or_eq_true _ _).mp hc with hc1 | hc1
        · have hf : tblHas (tblSet2 b tag target v) target = false := by simpa using hc1
          rw [tblHas_of_isSome hsome] at hf
          cases hf
        · rw [hb1] at hc1
          simp at hc1
      · rw [if_neg he]; exact hb1
    · rw [if_neg hc]; exact hb1
  · rw [if_neg ha]; exact h

theorem expandStep_mono {b : Table} {x y : String}
    (tag target : String) (v : ℚ) (h : (getInTbl b x y).isSome) :
    (getInTbl (expandStep b tag target v) x y).isSome := by
  rw [expandStep]
  by_cases ha : target ∈ ALLOWED_PRIMARY_TAGS ∧ tag ∈ ALLOWED_PRIMARY_TAGS
  · rw [if_pos ha]
    simp only []
    by_cases hc : (!(tblHas (tblSet2 b tag target v) target)
        || (getInTbl (tblSet2 b tag target v) target tag).isNone) = true
    · rw [if_pos hc, getInTbl_tblSet2]
      by_cases he : x = target ∧ y = tag
      · rw [if_pos he]; rfl
      · rw [if_neg he, getInTbl_tblSet2]
        by_cases he2 : x = tag ∧ y = target
        · rw [if_pos he2]; rfl
        · rw [if_neg he2]; exact h
    · rw [if_neg hc, getInTbl_tblSet2]
      by_cases he2 : x = tag ∧ y = target
      · rw [if_pos he2]; rfl
      · rw [if_neg he2]; exact h
  · rw [if_neg ha]; exact h

theorem expandStep_rev (b : Table) (tag target : String) (v : ℚ)
    (ht : tag ∈ ALLOWED_PRIMARY_TAGS) (h2 : target ∈ ALLOWED_PRIMARY_TAGS) :
    (getInTbl (expandStep b tag target v) target tag).isSome := by
  simp only [expandStep, if_pos (And.intro h2 ht)]
  by_cases hc : (!(tblHas (tblSet2 b tag target v) target)
      || (getInTbl (tblSet2 b tag target v) target tag).isNone) = true
  · rw [if_pos hc, getInTbl_tblSet2, if_pos ⟨rfl, rfl⟩]; rfl
  · rw [if_neg hc]
    have hcf : (!(tblHas (tblSet2 b tag target v) target)
        || (getInTbl (tblSet2 b tag target v) target tag).isNone) = false :=
      Bool.eq_false_iff.mpr hc
    rw [Bool.or_eq_false_iff] at hcf
    cases hgt : getInTbl (tblSet2 b tag target v) target tag with
    | none => rw [hgt] at hcf; simp at hcf
    | some s => rfl

theorem expandStep_origin {b : Table} {x y : String} {s : ℚ} {tag target : String} {v : ℚ}
    (h : getInTbl (expandStep b tag target v) x y = some s) :
    getInTbl b x y = some s ∨
      ((x = tag ∧ y = target ∨ x = target ∧ y = tag) ∧
        tag ∈ ALLOWED_PRIMARY_TAGS ∧ target ∈ ALLOWED_PRIMARY_TAGS ∧ s = v) := by
  rw [expandStep] at h
  by_cases ha : target ∈ ALLOWED_PRIMARY_TAGS ∧ tag ∈ ALLOWED_PRIMARY_TAGS
  · rw [if_pos ha] at h
    simp only [] at h
    by_cases hc : (!(tblHas (tblSet2 b tag target v) target)
        || (getInTbl (tblSet2 b tag target v) target tag).isNone) = true
    · rw [if_pos hc, getInTbl_tblSet2] at h
      by_cases he : x = target ∧ y = tag
      · rw [if_pos he] at h
        exact Or.inr ⟨Or.inr he, ha.2, ha.1, (Option.some_inj.mp h).symm⟩
      · rw [if_neg he, getInTbl_tblSet2] at h
        by_cases he2 : x = tag ∧ y = target
        · rw [if_pos he2] at h
          exact Or.inr ⟨Or.inl he2, ha.2, ha.1, (Option.some_inj.mp h).symm⟩
        · rw [if_neg he2] at h; exact Or.inl h
    · rw [if_neg hc, getInTbl_tblSet2] at h
      by_cases he2 : x = tag ∧ y = target
      · rw [if_pos he2] at h
        exact Or.inr ⟨Or.inl he2, ha.2, ha.1, (Option.some_inj.mp h).symm⟩
      · rw [if_neg he2] at h; exact Or.inl h
  · rw [if_neg ha] at h; exact Or.inl h

/-! ### Folding the expansion over target lists and rows -/

theorem expandRow_cons (b : Table) (tag : String) (p : String × ℚ) (rest : Row) :
    expandRow b (tag, p :: rest) = expandRow (expandStep b tag p.1 p.2) (tag, rest) := rfl

theorem expandRow_preserve {x y : String} {s : ℚ} (tag : String) :
    ∀ (ps : Row) (b : Table), (∀ p ∈ ps, ¬(x = tag ∧ y = p.1)) →
      getInTbl b x y = some s → getInTbl (expandRow b (tag, ps)) x y = some s := by
  intro ps
  induction ps with
  | nil => intro b _ h; exact h
  | cons p rest ih =>
    intro b hall h
    rw [expandRow_cons]
    exact ih _ (fun q hq => hall q (List.mem_cons_of_mem _ hq))
      (expandStep_preserve _ _ _ (hall p (List.mem_cons_self _ _)) h)

theorem expandRow_mono {x y : String} (tag : String) :
    ∀ (ps : Row) (b : Table), (getInTbl b x y).isSome →
      (getInTbl (expandRow b (tag, ps)) x y).isSome := by
  intro ps
  induction ps with
  | nil => intro b h; exact h
  | cons p rest ih =>
    intro b h
    rw [expandRow_cons]
    exact ih _ (expandStep_mono _ _ _ h)

theorem expandRow_self (tag : String) :
    ∀ (ps : Row) (b : Table) (target : String) (v : ℚ),
      (target, v) ∈ ps → (ps.map Prod.fst).Nodup →
      tag ∈ ALLOWED_PRIMARY_TAGS → target ∈ ALLOWED_PRIMARY_TAGS →
      getInTbl (expandRow b (tag, ps)) tag target = some v := by
  intro ps
  induction ps with
  | nil => intro b target v h _ _ _; cases h
  | cons p rest ih =>
    intro b target v hmem hnd ht h2
    rw [List.map_cons, List.nodup_cons] at hnd
    rw [expandRow_cons]
    rcases List.mem_cons.mp hmem with h1 | h1
    · have hp1 : p.1 = target := by rw [← h1]
      have hp2 : p.2 = v := by rw [← h1]
      apply expandRow_preserve tag rest _
        (fun q hq hqe => hnd.1 (by
          rw [hp1] at hnd ⊢
          exact hqe.2 ▸ List.mem_map.mpr ⟨q, hq, rfl⟩))
      rw [hp1, hp2]
      exact expandStep_self b tag target v ht h2
    · exact ih _ target v h1 hnd.2 ht h2

theorem expandRow_rev (tag : String) :
    ∀ (ps : Row) (b : Table) (target : String) (v : ℚ),
      (target, v) ∈ ps →
      tag ∈ ALLOWED_PRIMARY_TAGS → target ∈ ALLOWED_PRIMARY_TAGS →
      (getInTbl (expandRow b (tag, ps)) target tag).isSome := by
  intro ps
  induction ps with
  | nil => intro b target v h _ _; cases h
  | cons p rest ih =>
    intro b target v hmem ht h2
    rw [expandRow_cons]
    rcases List.mem_cons.mp hmem with h1 | h1
    · have hp1 : p.1 = target := by rw [← h1]
      have hp2 : p.2 = v := by rw [← h1]
      apply expandRow_mono
      rw [hp1, hp2]
      exact expandStep_rev b tag target v ht h2
    · exact ih _ target v h1 ht h2

theorem expandFold_preserve {x y : String} {s : ℚ} :
    ∀ (rows : Table) (b : Table),
      (∀ r ∈ rows, ∀ p ∈ r.2, ¬(x = r.1 ∧ y = p.1)) →
      getInTbl b x y = some s → getInTbl (rows.foldl expandRow b) x y = some s := by
  intro rows
  induction rows with
  | nil => intro b _ h; exact h
  | cons r rest ih =>
    intro b hall h
    rw [List.foldl_cons]
    refine ih _ (fun r' hr' p hp => hall r' (List.mem_cons_of_mem _ hr') p hp) ?_
    have : expandRow b r = expandRow b (r.1, r.2) := rfl
    rw [this]
    exact expandRow_preserve r.1 r.2 b (fun p hp => hall r (List.mem_cons_self _ _) p hp) h

theorem expandFold_mono {x y : String} :
    ∀ (rows : Table) (b : Table), (getInTbl b x y).isSome →
      (getInTbl (rows.foldl expandRow b) x y).isSome := by
  intro rows
  induction rows with
  | nil => intro b h; exact h
  | cons r rest ih =>
    intro b h
    rw [List.foldl_cons]
    exact ih _ (show (getInTbl (expandRow b (r.1, r.2)) x y).isSome from expandRow_mono _ _ _ h)

theorem expandFold_self :
    ∀ (rows : Table) (b : Table) (tag : String) (ps : Row) (target : String) (v : ℚ),
      (tag, ps) ∈ rows → (rows.map Prod.fst).Nodup → (target, v) ∈ ps →
      (ps.map Prod.fst).Nodup →
      tag ∈ ALLOWED_PRIMARY_TAGS → target ∈ ALLOWED_PRIMARY_TAGS →
      getInTbl (rows.foldl expandRow b) tag target = some v := by
  intro rows
  induction rows with
  | nil => intro b tag ps target v h; cases h
  | cons r rest ih =>
    intro b tag ps target v hmem hnd hpmem hpnd ht h2
    rw [List.map_cons, List.nodup_cons] at hnd
    rw [List.foldl_cons]
    rcases List.mem_cons.mp hmem with h1 | h1
    · have hr1 : r.1 = tag := by rw [← h1]
      have hr2 : r.2 = ps := by rw [← h1]
      apply expandFold_preserve rest _ ?_ ?_
      · intro r' hr' p hp hq
        apply hnd.1
        rw [hr1, hq.1]
        exact List.mem_map.mpr ⟨r', hr', rfl⟩
      · have : expandRow b r = expandRow b (r.1, r.2) := rfl
        rw [this, hr1, hr2]
        exact expandRow_self tag ps b target v hpmem hpnd ht h2
    · exact ih _ tag ps target v h1 hnd.2 hpmem hpnd ht h2

theorem expandFold_rev :
    ∀ (rows : Table) (b : Table) (tag : String) (ps : Row) (target : String) (v : ℚ),
      (tag, ps) ∈ rows → (target, v) ∈ ps →
      tag ∈ ALLOWED_PRIMARY_TAGS → target ∈ ALLOWED_PRIMARY_TAGS →
      (getInTbl (rows.foldl expandRow b) target tag).isSome := by
  intro rows
  induction rows with
  | nil => intro b tag ps target v h; cases h
  | cons r rest ih =>
    intro b tag ps target v hmem hpmem ht h2
    rw [List.foldl_cons]
    rcases List.mem_cons.mp hmem with h1 | h1
    · apply expandFold_mono
      have : expandRow b r = expandRow b (r.1, r.2) := rfl
      rw [this, show r.1 = tag from by rw [← h1], show r.2 = ps from by rw [← h1]]
      exact expandRow_rev tag ps b target v hpmem ht h2
    · exact ih _ tag ps target v h1 hpmem ht h2

theorem getInTbl_def (m : Table) (x y : String) :
    getInTbl m x y = rowGet? (tblGet m x) y := rfl

/-! ### Stability of a row that the expansion never writes to -/

theorem expandStep_row_stable {a tag target : String} {b : Table} (v : ℚ)
    (hta : tag ≠ a) (hmir : target = a → (getInTbl b a tag).isSome) :
    tblGet (expandStep b tag target v) a = tblGet b a := by
  rw [expandStep]
  by_cases ha : target ∈ ALLOWED_PRIMARY_TAGS ∧ tag ∈ ALLOWED_PRIMARY_TAGS
  · rw [if_pos ha]
    simp only []
    have hb1 : tblGet (tblSet2 b tag target v) a = tblGet b a := by
      rw [tblGet_tblSet2, if_neg (fun h => hta h.symm)]
    by_cases hc : (!(tblHas (tblSet2 b tag target v) target)
        || (getInTbl (tblSet2 b tag target v) target tag).isNone) = true
    · rw [if_pos hc]
      by_cases hat : target = a
      · exfalso
        subst hat
        have hsome : (getInTbl (tblSet2 b tag target v) target tag).isSome := by
          rw [getInTbl_def, hb1, ← getInTbl_def]
          exact hmir rfl
        rcases (Bool.or_eq_true _ _).mp hc with hc1 | hc1
        · have hf : tblHas (tblSet2 b tag target v) target = false := by simpa using hc1
          rw [tblHas_of_isSome hsome] at hf
          cases hf
        · rw [Option.isNone_iff_eq_none] at hc1
          rw [hc1] at hsome
          cases hsome
      · rw [tblGet_tblSet2, if_neg (fun h => hat h.symm)]
        exact hb1
    · rw [if_neg hc]; exact hb1
  · rw [if_neg ha]

theorem expandRow_row_stable {a : String} (tag : String) :
    ∀ (ps : Row) (b : Table), tag ≠ a →
      (∀ p ∈ ps, p.1 = a → (getInTbl b a tag).isSome) →
      tblGet (expandRow b (tag, ps)) a = tblGet b a := by
  intro ps
  induction ps with
  | nil => intro b _ _; rfl
  | cons p rest ih =>
    intro b hta hall
    rw [expandRow_cons]
    have h1 : tblGet (expandStep b tag p.1 p.2) a = tblGet b a :=
      expandStep_row_stable p.2 hta (fun h => hall p (List.mem_cons_self _ _) h)
    rw [← h1]
    exact ih _ hta (fun q hq hqa => by
      rw [getInTbl_def, h1, ← getInTbl_def]
      exact hall q (List.mem_cons_of_mem _ hq) hqa)

theorem expandFold_row_stable {a : String} :
    ∀ (rows : Table) (b : Table),
      (∀ r ∈ rows, r.1 ≠ a) →
      (∀ r ∈ rows, ∀ p ∈ r.2, p.1 = a → (getInTbl b a r.1).isSome) →
      tblGet (rows.foldl expandRow b) a = tblGet b a := by
  intro rows
  induction rows with
  | nil => intro b _ _; rfl
  | cons r rest ih =>
    intro b hkeys hall
    rw [List.foldl_cons]
    have h1 : tblGet (expandRow b r) a = tblGet b a := by
      have : expandRow b r = expandRow b (r.1, r.2) := rfl
      rw [this]
      exact expandRow_row_stable r.1 r.2 b (hkeys r (List.mem_cons_self _ _))
        (fun p hp hpa => hall r (List.mem_cons_self _ _) p hp hpa)
    rw [← h1]
    exact ih _ (fun r' hr' => hkeys r' (List.mem_cons_of_mem _ hr'))
      (fun r' hr' p hp hpa => by
        rw [getInTbl_def, h1, ← getInTbl_def]
        exact hall r' (List.mem_cons_of_mem _ hr') p hp hpa)

/-! ### Every entry of the expanded manual table joins allowed tags -/

theorem expandRow_allowed (tag : String) :
    ∀ (ps : Row) (b : Table),
      (∀ x y, (getInTbl b x y).isSome → x ∈ ALLOWED_PRIMARY_TAGS ∧ y ∈ ALLOWED_PRIMARY_TAGS) →
      ∀ x y, (getInTbl (expandRow b (tag, ps)) x y).isSome →
        x ∈ ALLOWED_PRIMARY_TAGS ∧ y ∈ ALLOWED_PRIMARY_TAGS := by
  intro ps
  induction ps with
  | nil => intro b hb x y h; exact hb x y h
  | cons p rest ih =>
    intro b hb x y h
    rw [expandRow_cons] at h
    refine ih _ ?_ x y h
    intro x' y' h'
    rcases Option.isSome_iff_exists.mp h' with ⟨s, hs⟩
    rcases expandStep_origin hs with h0 | ⟨hp, ht, htar, _⟩
    · exact hb x' y' (by rw [h0]; rfl)
    · rcases hp with ⟨hx, hy⟩ | ⟨hx, hy⟩
      · exact ⟨hx ▸ ht, hy ▸ htar⟩
      · exact ⟨hx ▸ htar, hy ▸ ht⟩

theorem expandFold_allowed :
    ∀ (rows : Table) (b : Table),
      (∀ x y, (getInTbl b x y).isSome → x ∈ ALLOWED_PRIMARY_TAGS ∧ y ∈ ALLOWED_PRIMARY_TAGS) →
      ∀ x y, (getInTbl (rows.foldl expandRow b) x y).isSome →
        x ∈ ALLOWED_PRIMARY_TAGS ∧ y ∈ ALLOWED_PRIMARY_TAGS := by
  intro rows
  induction rows with
  | nil => intro b hb x y h; exact hb x y h
  | cons r rest ih =>
    intro b hb x y h
    rw [List.foldl_cons] at h
    exact ih _ (fun x' y' h' => expandRow_allowed r.1 r.2 b hb x' y' h') x y h

theorem expandManual_allowed {x y : String}
    (h : (getInTbl expandManualConnections x y).isSome) :
    x ∈ ALLOWED_PRIMARY_TAGS ∧ y ∈ ALLOWED_PRIMARY_TAGS := by
  rw [expandManualConnections, expandManualTable] at h
  exact expandFold_allowed MANUAL_CONNECTIONS [] (fun x' y' h' => by cases h') x y h

/-! ## Facts about the concrete manual table -/

theorem manual_keys_nodup : (MANUAL_CONNECTIONS.map Prod.fst).Nodup := by decide

theorem manual_rows_nodup : ∀ r ∈ MANUAL_CONNECTIONS, (r.2.map Prod.fst).Nodup := by decide

/-! ## Claim C2 -/

/-- Claim C2, counterexample.  The claim says the first writer wins per
direction.  In the static table the row `"torture"` precedes the row
`"pain"` (fifth conjunct), and `"torture"` lists `pain: 4.0` while
`"pain"` lists `torture: 3.8` (third and fourth conjuncts), so under the
claim the mirror write from the `"torture"` row — the first writer for
the direction pain→torture — would leave `bidir["pain"]["torture"] = 4.0`.
The code instead returns `3.8` for that direction: the later explicit
write `bidir["pain"]["torture"] = 3.8` overwrites the mirrored `4.0`,
because only the mirror write is guarded, not the forward write. -/
theorem claim_C2_counterexample :
    getInTbl expandManualConnections "pain" "torture" = some (Rat.divInt 19 5) ∧
    getInTbl expandManualConnections "torture" "pain" = some 4 ∧
    getInTbl MANUAL_CONNECTIONS "torture" "pain" = some 4 ∧
    getInTbl MANUAL_CONNECTIONS "pain" "torture" = some (Rat.divInt 19 5) ∧
    List.findIdx (fun r => r.1 = "torture") MANUAL_CONNECTIONS <
      List.findIdx (fun r => r.1 = "pain") MANUAL_CONNECTIONS ∧
    (Rat.divInt 19 5 : ℚ) ≠ 4 := by
  refine ⟨?_, ?_, by decide, by decide, by decide, by decide⟩
  · rw [expandManualConnections, expandManualTable]
    exact expandFold_self MANUAL_CONNECTIONS [] "pain"
      [("torture", Rat.divInt 38 10), ("emotion", Rat.divInt 35 10),
        ("living", Rat.divInt 32 10), ("death", Rat.divInt 30 10)]
      "torture" (Rat.divInt 19 5)
      (by decide) manual_keys_nodup (by decide) (by decide) (by decide) (by decide)
  · rw [expandManualConnections, expandManualTable]
    exact expandFold_self MANUAL_CONNECTIONS [] "torture"
      [("suffering", Rat.divInt 42 10), ("pain", Rat.divInt 40 10),
        ("violence", Rat.divInt 38 10), ("evil", Rat.divInt 35 10)]
      "pain" 4
      (by decide) manual_keys_nodup (by decide) (by decide) (by decide) (by decide)

/-- Claim C2, amended: `expand_manual_connections` returns a
bidirectional map — for every pair `(A, B)` with score `S` in the static
manual table with both tags in the allowed vocabulary, the result
contains both `A→B` and `B→A` — and the direction `A→B` of an explicitly
listed pair always carries that pair's own score `S`: the forward write
is unconditional (overwriting any previously mirrored score), while only
the mirror write `B→A` is guarded and never overwrites an existing
entry.  So when `A` lists `B` and `B` lists `A` at different scores,
each direction keeps its own listed score, not the first writer's. -/
theorem claim_C2_amended (tag : String) (ps : Row) (target : String) (v : ℚ)
    (hrow : (tag, ps) ∈ MANUAL_CONNECTIONS) (htar : (target, v) ∈ ps)
    (ht : tag ∈ ALLOWED_PRIMARY_TAGS) (h2 : target ∈ ALLOWED_PRIMARY_TAGS) :
    getInTbl expandManualConnections tag target = some v ∧
    (getInTbl expandManualConnections target tag).isSome := by
  constructor
  · rw [expandManualConnections, expandManualTable]
    exact expandFold_self MANUAL_CONNECTIONS [] tag ps target v hrow manual_keys_nodup
      htar (manual_rows_nodup (tag, ps) hrow) ht h2
  · rw [expandManualConnections, expandManualTable]
    exact expandFold_rev MANUAL_CONNECTIONS [] tag ps target v hrow htar ht h2

/-- Claim C2, witness: the amended theorem applied to the
`architecture → design: 4.2` entry of the static table. -/
theorem claim_C2_witness :
    getInTbl expandManualConnections "architecture" "design" = some (Rat.divInt 42 10) ∧
    (getInTbl expandManualConnections "design" "architecture").isSome :=
  claim_C2_amended "architecture"
    [("design", Rat.divInt 42 10), ("cities", Rat.divInt 40 10), ("art", Rat.divInt 35 10),
      ("civilisation", Rat.divInt 32 10), ("making", Rat.divInt 29 10)]
    "design" (Rat.divInt 42 10) (by decide) (by decide) (by decide) (by decide)

/-! ## Claim C4 -/

/-- Claim C4, counterexample: a record with a present-but-empty
weighted-tag sequence and raw tags `["Life"]`.  Python's truthiness test
`if q.get('weighted_tags'):` treats the empty list as absent, so the
shared tag-selection step reverts to the lowercased raw tags, while the
claim ("including when the weighted-tag sequence is present but empty")
requires the empty weighted list to be authoritative. -/
theorem claim_C4_counterexample :
    selectTags { tags := ["Life"], weighted_tags := some [] } = ["life"] ∧
    selectTagsClaimed { tags := ["Life"], weighted_tags := some [] } = [] ∧
    (["life"] : List String) ≠ [] := ⟨rfl, rfl, by decide⟩

/-- Claim C4, amended: the shared tag-selection step (used verbatim by
`compute_tag_frequencies`, `compute_weighted_tags` and
`build_cooccurrence_matrix`, which this embedding expresses by defining
all three through `selectTags`) uses the names of the weighted-tag
sequence, in its existing order, whenever that sequence is present and
*non-empty*; when it is absent *or present but empty* the record's raw
tags, lowercased, are used instead. -/
theorem claim_C4_amended (q : Quote) :
    (∀ w ws, q.weighted_tags = some (w :: ws) →
      selectTags q = (w :: ws).map (fun t => t.tag)) ∧
    (q.weighted_tags = none ∨ q.weighted_tags = some [] →
      selectTags q = q.tags.map strLower) := by
  constructor
  · intro w ws h
    rw [selectTags, h]
  · intro h
    rcases h with h | h <;> rw [selectTags, h]

/-- Claim C4, witness: the amended theorem at a record carrying a
non-empty weighted list, and at one carrying an empty weighted list. -/
theorem claim_C4_witness :
    selectTags
        { tags := ["X"], weighted_tags := some [WeightedTag.mk "life" 1 1 1] } = ["life"] ∧
    selectTags { tags := ["X"], weighted_tags := some [] } = ["x"] := by
  constructor
  · exact (claim_C4_amended _).1 (WeightedTag.mk "life" 1 1 1) [] rfl
  · exact (claim_C4_amended _).2 (Or.inr rfl)

theorem subOfChars_nil (l : List Char) : subOfChars [] l = true := by
  cases l with
  | nil => rfl
  | cons c rest => rw [subOfChars, prefixOfChars]; rfl

theorem substr_empty (b : String) : substr "" b = true := subOfChars_nil b.data

/-! ## Claim C5 -/

/-- Claim C5, counterexample: a record with an empty (or absent) author.
In Python `'' in t` is `True` for every `t`, so the filter
`[t for t in tags if t not in author and author not in t]` removes
*every* tag when the author string is empty — the opposite of the
claim's "no tag is removed by this filter". -/
theorem claim_C5_counterexample :
    authorFilter "" ["life"] = [] ∧
    authorFilterClaimed "" ["life"] = ["life"] ∧
    ([] : List String) ≠ ["life"] := ⟨rfl, rfl, by decide⟩

/-- Claim C5, amended: the author-collision filter removes a tag exactly
when the tag is a substring of the lowercased author name or vice versa,
*under Python's convention that the empty string is a substring of every
string*; in particular, for a record whose author field is empty or
absent every tag is removed by this filter. -/
theorem claim_C5_amended (author : String) (tags : List String) :
    authorFilter author tags =
      tags.filter (fun t => !(substr t author || substr author t)) ∧
    (author = "" → authorFilter author tags = []) := by
  constructor
  · rw [authorFilter]
    apply List.filter_congr
    intro t _
    rw [Bool.not_or]
  · intro h
    subst h
    rw [authorFilter]
    rw [List.filter_eq_nil_iff]
    intro t _
    rw [substr_empty]
    simp

/-- Claim C5, witness: the amended theorem at a non-trivial author and at
the empty author. -/
theorem claim_C5_witness :
    authorFilter "plato" ["life", "plato"] =
      List.filter (fun t => !(substr t "plato" || substr "plato" t)) ["life", "plato"] ∧
    authorFilter "" ["life", "death"] = [] :=
  ⟨(claim_C5_amended "plato" ["life", "plato"]).1,
    (claim_C5_amended "" ["life", "death"]).2 rfl⟩

/-! ## The relevance scorer: closed form and bounds -/

theorem relevance_closed_form (q : Quote) (tag : String) :
    computeQuoteRelevance q tag = relevanceAmended q tag := by
  rw [computeQuoteRelevance, relevanceAmended, textBonus, authorFactor, positionBonus]
  simp only [qAdd_eq, qMul_eq, qSub_eq, qDiv_eq, ratMin_eq]
  split_ifs <;> first | rfl | (congr 1; ring)

theorem textBonus_nonneg (q : Quote) (tag : String) : 0 ≤ textBonus q tag := by
  rw [textBonus]
  split_ifs <;> norm_num [Rat.divInt_eq_div]

theorem authorFactor_half_le (q : Quote) (tag : String) :
    Rat.divInt 1 2 ≤ authorFactor q tag := by
  rw [authorFactor]
  split_ifs <;> norm_num [Rat.divInt_eq_div]

theorem positionBonus_nonneg (q : Quote) (tag : String) : 0 ≤ positionBonus q tag := by
  rw [positionBonus]
  simp only [qMul_eq, qSub_eq, qDiv_eq]
  split_ifs with h
  · have hlt := List.indexOf_lt_length.mpr h
    have hlen : (0 : ℚ) < ((q.tags.map strLower).length : ℚ) := by
      exact_mod_cast Nat.lt_of_le_of_lt (Nat.zero_le _) hlt
    have hdiv : ((q.tags.map strLower).indexOf (strLower tag) : ℚ) /
        ((q.tags.map strLower).length : ℚ) ≤ 1 := by
      rw [div_le_one hlen]
      exact_mod_cast Nat.le_of_lt hlt
    have : (0 : ℚ) ≤ 1 - ((q.tags.map strLower).indexOf (strLower tag) : ℚ) /
        ((q.tags.map strLower).length : ℚ) := by linarith
    have h110 : (0 : ℚ) ≤ Rat.divInt 1 10 := by
      rw [Rat.divInt_eq_div]; norm_num
    exact mul_nonneg h110 this
  · exact le_refl 0

theorem relevance_bounds (q : Quote) (tag : String) :
    Rat.divInt 1 4 ≤ computeQuoteRelevance q tag ∧ computeQuoteRelevance q tag ≤ 1 := by
  rw [relevance_closed_form, relevanceAmended]
  rw [ratMin_eq, qAdd_eq, qMul_eq, qAdd_eq]
  have htb := textBonus_nonneg q tag
  have haf := authorFactor_half_le q tag
  have hpb := positionBonus_nonneg q tag
  rw [Rat.divInt_eq_div] at haf ⊢
  constructor
  · apply le_min
    · have hmul : (1 / 2 : ℚ) * (1 / 2) ≤ (Rat.divInt 1 2 + textBonus q tag) * authorFactor q tag := by
        apply mul_le_mul
        · rw [Rat.divInt_eq_div]; linarith
        · exact haf
        · norm_num
        · rw [Rat.divInt_eq_div]; linarith
      linarith
    · norm_num
  · exact min_le_right _ _

/-! ## Claims C8 and C10 -/

/-- Claim C8, counterexample: the tag `"good life"` on a record whose
text is `"good\nlife"`.  Both tag words occur as whole words in the text
in the tag's order, so the claim's formula gives
`min((0.5 + 0.4) · 1 + 0.1, 1) = 1`; but the code's regex separator `.*`
cannot cross the newline, so the code takes the `+0.2` branch
(`"good"` is a long-enough substring) and returns `0.8`. -/
theorem claim_C8_counterexample :
    computeQuoteRelevance
        { quote := "good\nlife", author := "zz", tags := ["good life"] } "good life" =
      Rat.divInt 4 5 ∧
    relevanceClaimed
        { quote := "good\nlife", author := "zz", tags := ["good life"] } "good life" = 1 ∧
    (Rat.divInt 4 5 : ℚ) ≠ 1 := ⟨rfl, rfl, by decide⟩

/-- Claim C8, amended: `compute_quote_relevance` returns a value in
`[0, 1]` equal to: base `0.5`; plus `0.4` if every word of the tag
occurs as a whole word in the quote text, in the tag's order and with no
newline between the matched words (regex `.` does not cross lines); else
plus `0.2` if any tag word longer than 3 characters occurs anywhere in
the text as a substring; the sum multiplied by `0.5` if the tag and the
lowercased author name stand in substring containment; then, only if the
tag occurs in the record's raw lowercased tag list, plus a position
bonus of `0.1 × (1 − position/len(list))` added after the author
penalty; the result finally capped at `1.0`. -/
theorem claim_C8_amended (q : Quote) (tag : String) :
    computeQuoteRelevance q tag = relevanceAmended q tag ∧
    0 ≤ computeQuoteRelevance q tag ∧ computeQuoteRelevance q tag ≤ 1 :=
  ⟨relevance_closed_form q tag,
    le_trans (by rw [Rat.divInt_eq_div]; norm_num : (0 : ℚ) ≤ Rat.divInt 1 4)
      (relevance_bounds q tag).1,
    (relevance_bounds q tag).2⟩

/-- Claim C10: the relevance returned by `compute_quote_relevance` is at
least `0.25` for every record and tag — the base `0.5` is only ever
increased by the text and position bonuses and halved at most once by
the author penalty — so no tag ever receives zero relevance. -/
theorem claim_C10 (q : Quote) (tag : String) :
    Rat.divInt 1 4 ≤ computeQuoteRelevance q tag :=
  (relevance_bounds q tag).1

/-! ## The co-occurrence table: symmetry and self-pairs -/

theorem ccGet_ccBump (m : CTable) (k k2 a b : String) :
    ccGet (ccBump m k k2) a b = ccGet m a b + (if a = k ∧ b = k2 then 1 else 0) := by
  induction m with
  | nil =>
    simp only [ccBump, ccGet]
    by_cases hak : a = k
    · subst hak
      simp [countGet_bump, countGet, eq_comm]
    · rw [if_neg (fun h => hak h.symm), if_neg (fun h => hak h.1)]
  | cons p rest ih =>
    obtain ⟨c, r⟩ := p
    simp only [ccBump, ccGet]
    by_cases hck : c = k
    · subst hck
      by_cases hca : c = a
      · subst hca
        simp only [ccGet, if_pos rfl, countGet_bump]
        by_cases hb : b = k2
        · simp [hb]
        · simp [hb, fun h : c = c ∧ b = k2 => hb h.2]
      · have h1 : ¬a = c := fun h => hca h.symm
        simp [ccGet, hca, h1, fun h : a = c ∧ b = k2 => h1 h.1]
    · by_cases hca : c = a
      · subst hca
        have h1 : ¬(c = k ∧ b = k2) := fun h => hck h.1
        simp [ccGet, hck, h1]
      · have h1 : ¬a = c := fun h => hca h.symm
        simp [ccGet, hck, hca, h1, ih]

theorem ccGet_pair_bump (m : CTable) (t1 t2 a b : String) :
    ccGet (ccBump (ccBump m t1 t2) t2 t1) a b =
      ccGet m a b + (if a = t1 ∧ b = t2 then 1 else 0)
        + (if a = t2 ∧ b = t1 then 1 else 0) := by
  rw [ccGet_ccBump, ccGet_ccBump]

theorem ite_and_swap (p q : Prop) [Decidable (p ∧ q)] [Decidable (q ∧ p)] :
    (if p ∧ q then (1 : ℕ) else 0) = if q ∧ p then 1 else 0 := by
  by_cases h : p ∧ q
  · rw [if_pos h, if_pos ⟨h.2, h.1⟩]
  · rw [if_neg h, if_neg (fun h' => h ⟨h'.2, h'.1⟩)]

theorem addPairsFor_sym (t1 : String) :
    ∀ (rest : List String) (m : CTable),
      (∀ a b, ccGet m a b = ccGet m b a) →
      ∀ a b, ccGet (addPairsFor m t1 rest) a b = ccGet (addPairsFor m t1 rest) b a := by
  intro rest
  induction rest with
  | nil => intro m hm a b; exact hm a b
  | cons t2 ts ih =>
    intro m hm a b
    have hstep : addPairsFor m t1 (t2 :: ts) =
        addPairsFor (ccBump (ccBump m t1 t2) t2 t1) t1 ts := rfl
    rw [hstep]
    refine ih _ ?_ a b
    intro x y
    rw [ccGet_pair_bump, ccGet_pair_bump, hm x y,
      ite_and_swap (x = t1) (y = t2), ite_and_swap (x = t2) (y = t1)]
    omega

theorem addPairsFor_diag (t1 : String) :
    ∀ (rest : List String) (m : CTable), t1 ∉ rest →
      ∀ a, ccGet (addPairsFor m t1 rest) a a = ccGet m a a := by
  intro rest
  induction rest with
  | nil => intro m _ a; rfl
  | cons t2 ts ih =>
    intro m hmem a
    have hstep : addPairsFor m t1 (t2 :: ts) =
        addPairsFor (ccBump (ccBump m t1 t2) t2 t1) t1 ts := rfl
    have h12 : t1 ≠ t2 := fun h => hmem (h ▸ List.mem_cons_self _ _)
    rw [hstep, ih _ (fun h => hmem (List.mem_cons_of_mem _ h)), ccGet_pair_bump,
      if_neg (fun h : a = t1 ∧ a = t2 => h12 (h.1.symm.trans h.2)),
      if_neg (fun h : a = t2 ∧ a = t1 => h12 (h.2.symm.trans h.1))]
    omega

theorem addAllPairs_sym :
    ∀ (l : List String) (m : CTable),
      (∀ a b, ccGet m a b = ccGet m b a) →
      ∀ a b, ccGet (addAllPairs l m) a b = ccGet (addAllPairs l m) b a := by
  intro l
  induction l with
  | nil => intro m hm; exact hm
  | cons t ts ih =>
    intro m hm
    rw [addAllPairs]
    exact ih _ (addPairsFor_sym t ts m hm)

theorem addAllPairs_diag :
    ∀ (l : List String) (m : CTable), l.Nodup →
      ∀ a, ccGet (addAllPairs l m) a a = ccGet m a a := by
  intro l
  induction l with
  | nil => intro m _ a; rfl
  | cons t ts ih =>
    intro m hnd a
    rw [List.nodup_cons] at hnd
    rw [addAllPairs, ih _ hnd.2, addPairsFor_diag t ts m hnd.1]

theorem cooccur_fold_sym :
    ∀ (quotes : List Quote) (acc : CTable × List (String × ℕ)),
      (∀ a b, ccGet acc.1 a b = ccGet acc.1 b a) →
      ∀ a b,
        ccGet (quotes.foldl
          (fun acc q =>
            let tags := filteredTags q
            (addAllPairs tags acc.1, tags.foldl bump acc.2)) acc).1 a b =
        ccGet (quotes.foldl
          (fun acc q =>
            let tags := filteredTags q
            (addAllPairs tags acc.1, tags.foldl bump acc.2)) acc).1 b a := by
  intro quotes
  induction quotes with
  | nil => intro acc hm; exact hm
  | cons q qs ih =>
    intro acc hm
    rw [List.foldl_cons]
    exact ih _ (addAllPairs_sym (filteredTags q) acc.1 hm)

theorem cooccur_fold_diag :
    ∀ (quotes : List Quote) (acc : CTable × List (String × ℕ)),
      (∀ q ∈ quotes, (filteredTags q).Nodup) →
      ∀ a,
        ccGet (quotes.foldl
          (fun acc q =>
            let tags := filteredTags q
            (addAllPairs tags acc.1, tags.foldl bump acc.2)) acc).1 a a =
        ccGet acc.1 a a := by
  intro quotes
  induction quotes with
  | nil => intro acc _ a; rfl
  | cons q qs ih =>
    intro acc hnd a
    rw [List.foldl_cons, ih _ (fun q' hq' => hnd q' (List.mem_cons_of_mem _ hq'))]
    exact addAllPairs_diag (filteredTags q) acc.1 (hnd q (List.mem_cons_self _ _)) a

/-! ## Claim C3 -/

/-- Claim C3, counterexample: a record whose filtered tag list repeats
`"life"`.  The pair loop runs over list positions, so the position pair
`(0, 1)` has `tag1 = tag2 = "life"` and both increments hit the
diagonal entry, giving `cooccur["life"]["life"] = 2` — a self-pair,
where the claim says no self-pair exists even for duplicated tags. -/
theorem claim_C3_counterexample :
    ccGet (cooccurOf [{ author := "zz", tags := ["life", "life"] }]) "life" "life" = 2 ∧
    (2 : ℕ) ≠ 0 := ⟨rfl, by decide⟩

/-- Claim C3, amended: the co-occurrence table is symmetric
(`count(a,b) = count(b,a)`) for every corpus; and it contains no
self-pair `(a,a)` provided every record's filtered tag list is free of
duplicates — a record whose filtered list repeats a tag produces a
self-pair for that tag (two increments per duplicated position pair). -/
theorem claim_C3_amended (quotes : List Quote) :
    (∀ a b, ccGet (cooccurOf quotes) a b = ccGet (cooccurOf quotes) b a) ∧
    ((∀ q ∈ quotes, (filteredTags q).Nodup) →
      ∀ a, ccGet (cooccurOf quotes) a a = 0) := by
  constructor
  · intro a b
    rw [cooccurOf, buildCooccurrenceMatrix]
    exact cooccur_fold_sym quotes ([], []) (fun a' b' => rfl) a b
  · intro hnd a
    rw [cooccurOf, buildCooccurrenceMatrix]
    rw [cooccur_fold_diag quotes ([], []) hnd a]
    rfl

/-- Claim C3, witness: the amended theorem at a two-tag record. -/
theorem claim_C3_witness :
    (ccGet (cooccurOf [{ author := "zz", tags := ["life", "death"] }]) "life" "death" =
      ccGet (cooccurOf [{ author := "zz", tags := ["life", "death"] }]) "death" "life") ∧
    ccGet (cooccurOf [{ author := "zz", tags := ["life", "death"] }]) "life" "life" = 0 :=
  ⟨(claim_C3_amended _).1 "life" "death",
    (claim_C3_amended _).2 (by decide) "life"⟩

/-! ## Counting lemmas for the two frequency tables -/

theorem countGet_foldl_bump (x : String) :
    ∀ (l : List String) (m : List (String × ℕ)),
      countGet (l.foldl bump m) x = countGet m x + l.count x := by
  intro l
  induction l with
  | nil => intro m; simp
  | cons t ts ih =>
    intro m
    rw [List.foldl_cons, ih, countGet_bump, List.count_cons]
    by_cases h : x = t
    · simp [h]
      omega
    · have h2 : ¬t = x := fun hh => h hh.symm
      simp [h, h2]

theorem countGet_counterOf (x : String) (l : List String) :
    countGet (counterOf l) x = l.count x := by
  rw [counterOf, countGet_foldl_bump]
  simp [countGet]

theorem count_foldl_append (x : String) (g : Quote → List String) :
    ∀ (quotes : List Quote) (acc : List String),
      (quotes.foldl (fun acc q => acc ++ g q) acc).count x =
        acc.count x + (quotes.map (fun q => (g q).count x)).sum := by
  intro quotes
  induction quotes with
  | nil => intro acc; simp
  | cons q qs ih =>
    intro acc
    rw [List.foldl_cons, ih, List.count_append, List.map_cons, List.sum_cons]
    omega

theorem countGet_tagCounts_fold (x : String) :
    ∀ (quotes : List Quote) (acc : CTable × List (String × ℕ)),
      countGet (quotes.foldl
        (fun acc q =>
          let tags := filteredTags q
          (addAllPairs tags acc.1, tags.foldl bump acc.2)) acc).2 x =
      countGet acc.2 x + (quotes.map (fun q => (filteredTags q).count x)).sum := by
  intro quotes
  induction quotes with
  | nil => intro acc; simp
  | cons q qs ih =>
    intro acc
    rw [List.foldl_cons, ih]
    simp only []
    rw [countGet_foldl_bump, List.map_cons, List.sum_cons]
    omega

/-! ## Claim C6 -/

/-- Claim C6, counterexample: a record by `"Socrates"` tagged
`"socrates"`.  The tag stands in substring containment with the
lowercased author name, yet `compute_tag_frequencies` counts it — that
function filters only by the denylist; the author-collision filter
exists only in `build_cooccurrence_matrix`. -/
theorem claim_C6_counterexample :
    countGet (computeTagFrequencies
      [{ quote := "", author := "Socrates", tags := ["socrates"] }]) "socrates" = 1 ∧
    substr "socrates" (strLower "Socrates") = true ∧
    (1 : ℕ) ≠ 0 := ⟨rfl, rfl, by decide⟩

/-- Claim C6, amended: the per-tag counts `compute_tag_frequencies`
feeds to the corpus frequency scorer are accumulated after the denylist
filter only — a denylisted occurrence contributes nothing, but an
author-colliding occurrence does count.  The combined
denylist-and-author filtering described by the claim applies instead to
the per-tag counts of the co-occurrence aggregator
(`build_cooccurrence_matrix`): there a denylisted tag contributes
nothing, and a tag in substring containment with every record's
lowercased author name contributes nothing. -/
theorem claim_C6_amended (quotes : List Quote) (t : String) :
    (t ∈ EXCLUDED_TAGS → countGet (computeTagFrequencies quotes) t = 0) ∧
    (t ∈ EXCLUDED_TAGS → countGet (tagCountsOf quotes) t = 0) ∧
    ((∀ q ∈ quotes, substr t (strLower q.author) = true ∨
        substr (strLower q.author) t = true) →
      countGet (tagCountsOf quotes) t = 0) := by
  have hnotmem : t ∈ EXCLUDED_TAGS → ∀ q : Quote, t ∉ filteredTags q := by
    intro hex q hmem
    rw [filteredTags, authorFilter] at hmem
    have h1 := (List.mem_filter.mp hmem).1
    have h2 := (List.mem_filter.mp h1).2
    rw [decide_eq_true_iff] at h2
    exact h2 hex
  refine ⟨?_, ?_, ?_⟩
  · intro hex
    rw [computeTagFrequencies, countGet_counterOf, count_foldl_append]
    have hsum : (quotes.map
        (fun q => ((selectTags q).filter (fun t' => t' ∉ EXCLUDED_TAGS)).count t)).sum = 0 := by
      apply List.sum_eq_zero
      intro x hx
      rw [List.mem_map] at hx
      obtain ⟨q, hq, rfl⟩ := hx
      rw [List.count_eq_zero]
      intro hmem
      rw [List.mem_filter, decide_eq_true_iff] at hmem
      exact hmem.2 hex
    rw [hsum]
    rfl
  · intro hex
    rw [tagCountsOf, buildCooccurrenceMatrix, countGet_tagCounts_fold]
    have hsum : (quotes.map (fun q => (filteredTags q).count t)).sum = 0 := by
      apply List.sum_eq_zero
      intro x hx
      rw [List.mem_map] at hx
      obtain ⟨q, hq, rfl⟩ := hx
      rw [List.count_eq_zero]
      exact hnotmem hex q
    rw [hsum]
    rfl
  · intro hsub
    rw [tagCountsOf, buildCooccurrenceMatrix, countGet_tagCounts_fold]
    have hsum : (quotes.map (fun q => (filteredTags q).count t)).sum = 0 := by
      apply List.sum_eq_zero
      intro x hx
      rw [List.mem_map] at hx
      obtain ⟨q, hq, rfl⟩ := hx
      rw [List.count_eq_zero]
      intro hmem
      rw [filteredTags, authorFilter, List.mem_filter] at hmem
      have h2 := hmem.2
      rw [Bool.and_eq_true] at h2
      rcases hsub q hq with hs | hs
      · rw [hs] at h2
        simp at h2
      · rw [hs] at h2
        simp at h2
    rw [hsum]
    rfl

/-- Claim C6, witness: the amended theorem at a denylisted tag and at an
author-colliding tag. -/
theorem claim_C6_witness :
    countGet (computeTagFrequencies [{ author := "zz", tags := ["book"] }]) "book" = 0 ∧
    countGet (tagCountsOf
      [{ quote := "", author := "Socrates", tags := ["socrates"] }]) "socrates" = 0 :=
  ⟨(claim_C6_amended [{ author := "zz", tags := ["book"] }] "book").1 (by decide),
    (claim_C6_amended [{ quote := "", author := "Socrates", tags := ["socrates"] }]
      "socrates").2.2 (by decide)⟩

/-! ## Claim C9 -/

theorem weightDescLe_trans :
    ∀ a b c : WeightedTag, weightDescLe a b = true → weightDescLe b c = true →
      weightDescLe a c = true := by
  intro a b c hab hbc
  rw [weightDescLe, qLe_iff] at hab hbc ⊢
  exact le_trans hbc hab

theorem weightDescLe_total :
    ∀ a b : WeightedTag, (weightDescLe a b || weightDescLe b a) = true := by
  intro a b
  rcases le_total b.weight a.weight with h | h
  · rw [Bool.or_eq_true]
    exact Or.inl ((qLe_iff _ _).mpr h)
  · rw [Bool.or_eq_true]
    exact Or.inr ((qLe_iff _ _).mpr h)

/-- Claim C9: in the output of `compute_weighted_tags`, every record's
weighted-tag sequence holds one entry per non-excluded selected tag,
each entry's weight is `round(sqrt(c) × r, 4)` where `c` is the tag's
corpus score (default `0.1`) and `r` its quote relevance (the entry's
stored `corpus_score` and `relevance` are those same two factors rounded
to 4 decimals), and the sequence is sorted by weight in descending
order.  Stated for every interpretation `sqrtQ`, `logQ` of `math.sqrt`
and `math.log`. -/
theorem claim_C9 (sqrtQ logQ : ℚ → ℚ) (quotes : List Quote) (q : Quote)
    (hq : q ∈ quotes) :
    ∃ l, { q with weighted_tags := some l } ∈ computeWeightedTags sqrtQ logQ quotes ∧
      List.Pairwise (fun a b => weightDescLe a b = true) l ∧
      (l.map (fun e => e.tag)).Perm
        ((selectTags q).filter (fun t => t ∉ EXCLUDED_TAGS)) ∧
      ∀ e ∈ l, e.tag ∉ EXCLUDED_TAGS ∧
        e.weight = round4 (qMul
          (sqrtQ (rowGetD
            (computeCorpusFrequencyScore logQ (computeTagFrequencies quotes))
            e.tag (Rat.divInt 1 10)))
          (computeQuoteRelevance q e.tag)) ∧
        e.corpus_score = round4 (rowGetD
          (computeCorpusFrequencyScore logQ (computeTagFrequencies quotes))
          e.tag (Rat.divInt 1 10)) ∧
        e.relevance = round4 (computeQuoteRelevance q e.tag) := by
  classical
  set corpusScores :=
    computeCorpusFrequencyScore logQ (computeTagFrequencies quotes) with hcs
  set mk : String → WeightedTag := fun tag =>
    WeightedTag.mk tag
      (round4 (qMul (sqrtQ (rowGetD corpusScores tag (Rat.divInt 1 10)))
        (computeQuoteRelevance q tag)))
      (round4 (rowGetD corpusScores tag (Rat.divInt 1 10)))
      (round4 (computeQuoteRelevance q tag)) with hmk
  set mapped := ((selectTags q).filter (fun t => t ∉ EXCLUDED_TAGS)).map mk with hmap
  refine ⟨mapped.mergeSort weightDescLe, ?_, ?_, ?_, ?_⟩
  · rw [computeWeightedTags]
    exact List.mem_map_of_mem _ hq
  · exact List.sorted_mergeSort weightDescLe_trans weightDescLe_total _
  · have h1 : ((mapped.mergeSort weightDescLe).map (fun e => e.tag)).Perm
        (mapped.map (fun e => e.tag)) :=
      (List.mergeSort_perm mapped weightDescLe).map _
    have h2 : mapped.map (fun e => e.tag) =
        (selectTags q).filter (fun t => t ∉ EXCLUDED_TAGS) := by
      rw [hmap, List.map_map]
      have : ((fun e : WeightedTag => e.tag) ∘ mk) = fun t => t := by
        funext t
        rw [hmk]
        rfl
      rw [this, List.map_id']
    rw [h2] at h1
    exact h1
  · intro e he
    have hm : e ∈ mapped := (List.mergeSort_perm mapped weightDescLe).mem_iff.mp he
    rw [hmap, List.mem_map] at hm
    obtain ⟨tag, htag, rfl⟩ := hm
    have hnx : tag ∉ EXCLUDED_TAGS := by
      have := (List.mem_filter.mp htag).2
      rw [decide_eq_true_iff] at this
      exact this
    exact ⟨hnx, rfl, rfl, rfl⟩

/-- Claim C9, witness: the theorem applied to a one-record corpus with
the identity interpretations of `sqrt` and `log`. -/
theorem claim_C9_witness :
    ∃ l, { quote := "life", author := "zz", tags := ["life"],
             weighted_tags := some l } ∈
      computeWeightedTags (fun x => x) (fun x => x)
        [{ quote := "life", author := "zz", tags := ["life"] }] ∧
      List.Pairwise (fun a b => weightDescLe a b = true) l ∧
      (l.map (fun e => e.tag)).Perm
        ((selectTags { quote := "life", author := "zz", tags := ["life"] }).filter
          (fun t => t ∉ EXCLUDED_TAGS)) ∧
      ∀ e ∈ l, e.tag ∉ EXCLUDED_TAGS ∧
        e.weight = round4 (qMul
          ((fun x => x) (rowGetD
            (computeCorpusFrequencyScore (fun x => x) (computeTagFrequencies
              [{ quote := "life", author := "zz", tags := ["life"] }]))
            e.tag (Rat.divInt 1 10)))
          (computeQuoteRelevance
            { quote := "life", author := "zz", tags := ["life"] } e.tag)) ∧
        e.corpus_score = round4 (rowGetD
          (computeCorpusFrequencyScore (fun x => x) (computeTagFrequencies
            [{ quote := "life", author := "zz", tags := ["life"] }]))
          e.tag (Rat.divInt 1 10)) ∧
        e.relevance = round4 (computeQuoteRelevance
          { quote := "life", author := "zz", tags := ["life"] } e.tag) :=
  claim_C9 (fun x => x) (fun x => x)
    [{ quote := "life", author := "zz", tags := ["life"] }]
    { quote := "life", author := "zz", tags := ["life"] } (by decide)

/-! ## Generic fold invariance and key-uniqueness lemmas -/

theorem foldl_preserve {α β : Type} (P : α → Prop) (f : α → β → α)
    (hf : ∀ m x, P m → P (f m x)) :
    ∀ (l : List β) (m : α), P m → P (l.foldl f m) := by
  intro l
  induction l with
  | nil => intro m h; exact h
  | cons x xs ih => intro m h; exact ih _ (hf m x h)

theorem rowSet_keys_sub :
    ∀ (r : Row) (k x : String) (v : ℚ),
      x ∈ (rowSet r k v).map Prod.fst → x ∈ r.map Prod.fst ∨ x = k := by
  intro r
  induction r with
  | nil =>
    intro k x v h
    simp only [rowSet, List.map_cons, List.map_nil] at h
    exact Or.inr (List.mem_singleton.mp h)
  | cons p rest ih =>
    intro k x v h
    by_cases hpk : p.1 = k
    · rw [rowSet, if_pos hpk] at h
      rw [List.map_cons] at h ⊢
      exact Or.inl h
    · rw [rowSet, if_neg hpk] at h
      rw [List.map_cons] at h ⊢
      rcases List.mem_cons.mp h with h | h
      · exact Or.inl (List.mem_cons.mpr (Or.inl h))
      · rcases ih k x v h with h2 | h2
        · exact Or.inl (List.mem_cons_of_mem _ h2)
        · exact Or.inr h2

theorem rowSet_keys_nodup :
    ∀ (r : Row) (k : String) (v : ℚ),
      (r.map Prod.fst).Nodup → ((rowSet r k v).map Prod.fst).Nodup := by
  intro r
  induction r with
  | nil => intro k v _; simp [rowSet]
  | cons p rest ih =>
    intro k v h
    rw [List.map_cons, List.nodup_cons] at h
    by_cases hpk : p.1 = k
    · rw [rowSet, if_pos hpk, List.map_cons, List.nodup_cons]
      exact ⟨h.1, h.2⟩
    · rw [rowSet, if_neg hpk, List.map_cons, List.nodup_cons]
      refine ⟨fun hmem => ?_, ih k v h.2⟩
      rcases rowSet_keys_sub rest k p.1 v hmem with h2 | h2
      · exact h.1 h2
      · exact hpk h2

/-! ## Lookup behaviour of the related-map folds -/

theorem relatedFold_skip :
    ∀ (ps : Row) (r0 : Row) (k : String), (∀ p ∈ ps, p.1 ≠ k) →
      rowGet? (ps.foldl relatedStep r0) k = rowGet? r0 k := by
  intro ps
  induction ps with
  | nil => intro r0 k _; rfl
  | cons p rest ih =>
    intro r0 k hall
    rw [List.foldl_cons, ih _ k (fun q hq => hall q (List.mem_cons_of_mem _ hq))]
    rw [relatedStep]
    by_cases hA : p.1 ∈ ALLOWED_PRIMARY_TAGS
    · rw [if_pos hA, rowGet?_rowSet,
        if_neg (fun h => hall p (List.mem_cons_self _ _) h.symm)]
    · rw [if_neg hA]

theorem relatedFold_mem :
    ∀ (ps : Row) (r0 : Row) (k : String) (v : ℚ),
      (ps.map Prod.fst).Nodup → (k, v) ∈ ps → k ∈ ALLOWED_PRIMARY_TAGS →
      rowGet? (ps.foldl relatedStep r0) k = some v := by
  intro ps
  induction ps with
  | nil => intro r0 k v _ h; cases h
  | cons p rest ih =>
    intro r0 k v hnd hmem hA
    rw [List.map_cons, List.nodup_cons] at hnd
    rw [List.foldl_cons]
    rcases List.mem_cons.mp hmem with h1 | h1
    · have hp1 : p.1 = k := by rw [← h1]
      have hp2 : p.2 = v := by rw [← h1]
      rw [relatedFold_skip rest _ k
          (fun q hq hqk => hnd.1 (hp1 ▸ hqk ▸ List.mem_map.mpr ⟨q, hq, rfl⟩))]
      rw [relatedStep, if_pos (hp1 ▸ hA), rowGet?_rowSet, if_pos hp1.symm, hp2]
    · exact ih _ k v hnd.2 h1 hA

theorem relatedFold_origin :
    ∀ (ps : Row) (r0 : Row) (k : String) (v : ℚ),
      rowGet? (ps.foldl relatedStep r0) k = some v →
      rowGet? r0 k = some v ∨ (k ∈ ALLOWED_PRIMARY_TAGS ∧ ∃ p ∈ ps, p.1 = k) := by
  intro ps
  induction ps with
  | nil => intro r0 k v h; exact Or.inl h
  | cons p rest ih =>
    intro r0 k v h
    rw [List.foldl_cons] at h
    rcases ih _ k v h with h1 | h1
    · rw [relatedStep] at h1
      by_cases hA : p.1 ∈ ALLOWED_PRIMARY_TAGS
      · rw [if_pos hA, rowGet?_rowSet] at h1
        by_cases hk : k = p.1
        · exact Or.inr ⟨hk ▸ hA, p, List.mem_cons_self _ _, hk.symm⟩
        · rw [if_neg hk] at h1
          exact Or.inl h1
      · rw [if_neg hA] at h1
        exact Or.inl h1
    · exact Or.inr ⟨h1.1, h1.2.elim (fun q hq => ⟨q, List.mem_cons_of_mem _ hq.1, hq.2⟩)⟩

theorem manualFold_origin :
    ∀ (ms : Row) (r1 : Row) (k : String) (v : ℚ),
      rowGet? (ms.foldl manualStep r1) k = some v →
      rowGet? r1 k = some v ∨ ∃ p ∈ ms, p.1 = k := by
  intro ms
  induction ms with
  | nil => intro r1 k v h; exact Or.inl h
  | cons p rest ih =>
    intro r1 k v h
    rw [List.foldl_cons] at h
    rcases ih _ k v h with h1 | h1
    · rw [manualStep] at h1
      by_cases hn : (rowGet? r1 p.1).isNone
      · rw [if_pos hn, rowGet?_rowSet] at h1
        by_cases hk : k = p.1
        · exact Or.inr ⟨p, List.mem_cons_self _ _, hk.symm⟩
        · rw [if_neg hk] at h1
          exact Or.inl h1
      · rw [if_neg hn] at h1
        exact Or.inl h1
    · exact Or.inr (h1.elim (fun q hq => ⟨q, List.mem_cons_of_mem _ hq.1, hq.2⟩))

theorem manualFold_keep :
    ∀ (ms : Row) (r1 : Row) (k : String), (rowGet? r1 k).isSome →
      rowGet? (ms.foldl manualStep r1) k = rowGet? r1 k := by
  intro ms
  induction ms with
  | nil => intro r1 k _; rfl
  | cons p rest ih =>
    intro r1 k hs
    rw [List.foldl_cons]
    have hstep : rowGet? (manualStep r1 p) k = rowGet? r1 k := by
      rw [manualStep]
      by_cases hn : (rowGet? r1 p.1).isNone
      · rw [if_pos hn, rowGet?_rowSet]
        have hk : ¬k = p.1 := by
          intro hk
          rw [hk] at hs
          rw [Option.isNone_iff_eq_none] at hn
          rw [hn] at hs
          cases hs
        rw [if_neg hk]
      · rw [if_neg hn]
    rw [ih _ k (by rw [hstep]; exact hs), hstep]

theorem relatedFold_nodup :
    ∀ (ps : Row) (r0 : Row), (r0.map Prod.fst).Nodup →
      ((ps.foldl relatedStep r0).map Prod.fst).Nodup := by
  intro ps r0 h
  refine foldl_preserve (fun r => (r.map Prod.fst).Nodup) relatedStep ?_ ps r0 h
  intro r p hr
  rw [relatedStep]
  by_cases hA : p.1 ∈ ALLOWED_PRIMARY_TAGS
  · rw [if_pos hA]; exact rowSet_keys_nodup r p.1 p.2 hr
  · rw [if_neg hA]; exact hr

theorem manualFold_nodup :
    ∀ (ms : Row) (r1 : Row), (r1.map Prod.fst).Nodup →
      ((ms.foldl manualStep r1).map Prod.fst).Nodup := by
  intro ms r1 h
  refine foldl_preserve (fun r => (r.map Prod.fst).Nodup) manualStep ?_ ms r1 h
  intro r p hr
  rw [manualStep]
  by_cases hn : (rowGet? r p.1).isNone
  · rw [if_pos hn]; exact rowSet_keys_nodup r p.1 p.2 hr
  · rw [if_neg hn]; exact hr

theorem relatedMap_nodup (sims manual : Table) (tag : String) :
    ((relatedMap sims manual tag).map Prod.fst).Nodup := by
  rw [relatedMap]
  exact manualFold_nodup _ _ (relatedFold_nodup _ _ (by simp))

/-! ## Invariants of the similarity table -/

theorem tblSet2_rows_nodup :
    ∀ (m : Table) (k k2 : String) (v : ℚ),
      (∀ r ∈ m, (r.2.map Prod.fst).Nodup) →
      ∀ r ∈ tblSet2 m k k2 v, (r.2.map Prod.fst).Nodup := by
  intro m
  induction m with
  | nil =>
    intro k k2 v _ r hr
    rw [tblSet2] at hr
    rcases List.mem_cons.mp hr with h | h
    · rw [h]
      exact rowSet_keys_nodup [] k2 v (by simp)
    · cases h
  | cons p rest ih =>
    intro k k2 v hall r hr
    rw [tblSet2] at hr
    by_cases hpk : p.1 = k
    · rw [if_pos hpk] at hr
      rcases List.mem_cons.mp hr with h | h
      · rw [h]
        exact rowSet_keys_nodup p.2 k2 v (hall p (List.mem_cons_self _ _))
      · exact hall r (List.mem_cons_of_mem _ h)
    · rw [if_neg hpk] at hr
      rcases List.mem_cons.mp hr with h | h
      · rw [h]; exact hall p (List.mem_cons_self _ _)
      · exact ih k k2 v (fun r' hr' => hall r' (List.mem_cons_of_mem _ hr')) r h

theorem sims_rows_nodup (logQ : ℚ → ℚ) (cooccur : CTable)
    (tagCounts : List (String × ℕ)) :
    ∀ r ∈ computeTagSimilarity logQ cooccur tagCounts, (r.2.map Prod.fst).Nodup := by
  rw [computeTagSimilarity]
  refine foldl_preserve (fun sims : Table => ∀ r ∈ sims, (r.2.map Prod.fst).Nodup) _ ?_
    cooccur [] (by intro r hr; cases hr)
  intro sims row hall
  split
  · exact hall
  · refine foldl_preserve (fun sims : Table => ∀ r ∈ sims, (r.2.map Prod.fst).Nodup) _ ?_
      row.2 sims hall
    intro sims2 p hall2
    simp only []
    split_ifs <;> first
      | exact hall2
      | exact tblSet2_rows_nodup sims2 row.1 p.1 _ hall2

theorem sims_target_count (logQ : ℚ → ℚ) (cooccur : CTable)
    (tagCounts : List (String × ℕ)) :
    ∀ t1 t2, (getInTbl (computeTagSimilarity logQ cooccur tagCounts) t1 t2).isSome →
      3 ≤ countGet tagCounts t2 := by
  rw [computeTagSimilarity]
  refine foldl_preserve
    (fun sims : Table =>
      ∀ t1 t2, (getInTbl sims t1 t2).isSome → 3 ≤ countGet tagCounts t2) _ ?_
    cooccur [] (by intro t1 t2 h; simp [getInTbl, tblGet, rowGet?] at h)
  intro sims row hall
  split
  · exact hall
  · refine foldl_preserve
      (fun sims : Table =>
        ∀ t1 t2, (getInTbl sims t1 t2).isSome → 3 ≤ countGet tagCounts t2) _ ?_
      row.2 sims hall
    intro sims2 p hall2
    by_cases h2 : countGet tagCounts p.1 < 3
    · rw [if_pos h2]; exact hall2
    · rw [if_neg h2]
      by_cases h3 : p.2 < 2
      · rw [if_pos h3]; exact hall2
      · rw [if_neg h3]
        simp only []
        have hset : ∀ s : ℚ, ∀ t1 t2,
            (getInTbl (tblSet2 sims2 row.1 p.1 s) t1 t2).isSome →
              3 ≤ countGet tagCounts t2 := by
          intro s t1 t2 h
          rcases Option.isSome_iff_exists.mp h with ⟨w, hw⟩
          rw [getInTbl_tblSet2] at hw
          by_cases he : t1 = row.1 ∧ t2 = p.1
          · rw [he.2]; omega
          · rw [if_neg he] at hw
            exact hall2 t1 t2 (by rw [hw]; rfl)
        split_ifs <;> first | exact hall2 | exact hset _

/-! ## Keys of the aggregator's count table -/

theorem bump_keys_sub :
    ∀ (m : List (String × ℕ)) (k x : String),
      x ∈ (bump m k).map Prod.fst → x ∈ m.map Prod.fst ∨ x = k := by
  intro m
  induction m with
  | nil =>
    intro k x h
    simp only [bump, List.map_cons, List.map_nil] at h
    exact Or.inr (List.mem_singleton.mp h)
  | cons p rest ih =>
    intro k x h
    by_cases hpk : p.1 = k
    · rw [bump, if_pos hpk] at h
      rw [List.map_cons] at h ⊢
      exact Or.inl h
    · rw [bump, if_neg hpk] at h
      rw [List.map_cons] at h ⊢
      rcases List.mem_cons.mp h with h | h
      · exact Or.inl (List.mem_cons.mpr (Or.inl h))
      · rcases ih k x h with h2 | h2
        · exact Or.inl (List.mem_cons_of_mem _ h2)
        · exact Or.inr h2

theorem bump_keys_nodup :
    ∀ (m : List (String × ℕ)) (k : String),
      (m.map Prod.fst).Nodup → ((bump m k).map Prod.fst).Nodup := by
  intro m
  induction m with
  | nil => intro k _; simp [bump]
  | cons p rest ih =>
    intro k h
    rw [List.map_cons, List.nodup_cons] at h
    by_cases hpk : p.1 = k
    · rw [bump, if_pos hpk, List.map_cons, List.nodup_cons]
      exact ⟨h.1, h.2⟩
    · rw [bump, if_neg hpk, List.map_cons, List.nodup_cons]
      refine ⟨fun hmem => ?_, ih k h.2⟩
      rcases bump_keys_sub rest k p.1 hmem with h2 | h2
      · exact h.1 h2
      · exact hpk h2

theorem counts_keys_nodup (quotes : List Quote) :
    ((tagCountsOf quotes).map Prod.fst).Nodup := by
  rw [tagCountsOf, buildCooccurrenceMatrix]
  refine foldl_preserve
    (fun acc : CTable × List (String × ℕ) => (acc.2.map Prod.fst).Nodup) _ ?_
    quotes ([], []) (by simp)
  intro acc q hacc
  simp only []
  refine foldl_preserve
    (fun m : List (String × ℕ) => (m.map Prod.fst).Nodup) bump ?_ (filteredTags q)
    acc.2 hacc
  intro m k h
  exact bump_keys_nodup m k h

theorem countGet_of_mem :
    ∀ (m : List (String × ℕ)) (k : String) (c : ℕ),
      (m.map Prod.fst).Nodup → (k, c) ∈ m → countGet m k = c := by
  intro m
  induction m with
  | nil => intro k c _ h; cases h
  | cons p rest ih =>
    intro k c hnd hmem
    rw [List.map_cons, List.nodup_cons] at hnd
    rcases List.mem_cons.mp hmem with h1 | h1
    · rw [countGet, if_pos (by rw [← h1]), ← h1]
    · rw [countGet]
      by_cases hp : p.1 = k
      · exfalso
        exact hnd.1 (hp ▸ List.mem_map.mpr ⟨(k, c), h1, rfl⟩)
      · rw [if_neg hp]
        exact ih k c hnd.2 h1

/-! ## Membership in the final connections structure -/

theorem connsFold_mono (sims manual : Table) :
    ∀ (l : List (String × ℕ)) (conns : List (String × (Row × ℕ)))
      (x : String × (Row × ℕ)), x ∈ conns →
      x ∈ l.foldl (fun conns pc =>
        if pc.2 < 3 then conns
        else if pc.1 ∉ ALLOWED_PRIMARY_TAGS then conns
        else conns ++
          [(pc.1, (((relatedMap sims manual pc.1).mergeSort scoreDescLe).take 15, pc.2))])
        conns := by
  intro l
  induction l with
  | nil => intro conns x h; exact h
  | cons pc rest ih =>
    intro conns x h
    rw [List.foldl_cons]
    apply ih
    split_ifs <;> first | exact h | exact List.mem_append_left _ h

theorem connsFold_mem (sims manual : Table) :
    ∀ (l : List (String × ℕ)) (conns : List (String × (Row × ℕ)))
      (pc : String × ℕ), pc ∈ l → ¬(pc.2 < 3) → pc.1 ∈ ALLOWED_PRIMARY_TAGS →
      (pc.1, (((relatedMap sims manual pc.1).mergeSort scoreDescLe).take 15, pc.2)) ∈
        l.foldl (fun conns pc =>
          if pc.2 < 3 then conns
          else if pc.1 ∉ ALLOWED_PRIMARY_TAGS then conns
          else conns ++
            [(pc.1, (((relatedMap sims manual pc.1).mergeSort scoreDescLe).take 15, pc.2))])
          conns := by
  intro l
  induction l with
  | nil => intro conns pc h; cases h
  | cons pc0 rest ih =>
    intro conns pc hmem h3 hA
    rw [List.foldl_cons]
    rcases List.mem_cons.mp hmem with h1 | h1
    · subst h1
      rw [if_neg h3, if_neg (fun h => h hA)]
      apply connsFold_mono
      exact List.mem_append_right _ (List.mem_singleton.mpr rfl)
    · exact ih _ pc h1 h3 hA

theorem connsFold_origin (sims manual : Table) :
    ∀ (l : List (String × ℕ)) (conns : List (String × (Row × ℕ)))
      (x : String × (Row × ℕ)),
      x ∈ l.foldl (fun conns pc =>
        if pc.2 < 3 then conns
        else if pc.1 ∉ ALLOWED_PRIMARY_TAGS then conns
        else conns ++
          [(pc.1, (((relatedMap sims manual pc.1).mergeSort scoreDescLe).take 15, pc.2))])
        conns →
      x ∈ conns ∨ ∃ pc ∈ l, ¬(pc.2 < 3) ∧ pc.1 ∈ ALLOWED_PRIMARY_TAGS ∧
        x = (pc.1, (((relatedMap sims manual pc.1).mergeSort scoreDescLe).take 15, pc.2)) := by
  intro l
  induction l with
  | nil => intro conns x h; exact Or.inl h
  | cons pc0 rest ih =>
    intro conns x h
    rw [List.foldl_cons] at h
    rcases ih _ x h with h1 | h1
    · by_cases h3 : pc0.2 < 3
      · rw [if_pos h3] at h1
        exact Or.inl h1
      · rw [if_neg h3] at h1
        by_cases hA : pc0.1 ∈ ALLOWED_PRIMARY_TAGS
        · rw [if_neg (fun h => h hA)] at h1
          rcases List.mem_append.mp h1 with h2 | h2
          · exact Or.inl h2
          · exact Or.inr ⟨pc0, List.mem_cons_self _ _, h3, hA,
              List.mem_singleton.mp h2⟩
        · rw [if_pos hA] at h1
          exact Or.inl h1
    · exact Or.inr (h1.elim (fun pc hpc =>
        ⟨pc, List.mem_cons_of_mem _ hpc.1, hpc.2⟩))

/-- C1, amended: every top-level key of `build_tag_connections` is an
allowed tag whose corpus count is at least 3 (and the stored count is that
corpus count), and every related-tag target is in the allowed vocabulary;
but a related-tag target need not have corpus count ≥ 3 — a target whose
count is below 3 can appear, and then it necessarily comes from the
expanded manual connection table. -/
theorem claim_C1_amended (logQ : ℚ → ℚ) (quotes : List Quote) (tag : String)
    (rel : Row) (cnt : ℕ)
    (hmem : (tag, (rel, cnt)) ∈ buildTagConnections logQ quotes) :
    tag ∈ ALLOWED_PRIMARY_TAGS ∧ 3 ≤ cnt ∧
    countGet (tagCountsOf quotes) tag = cnt ∧
    ∀ p ∈ rel, p.1 ∈ ALLOWED_PRIMARY_TAGS ∧
      (countGet (tagCountsOf quotes) p.1 < 3 →
        (getInTbl expandManualConnections tag p.1).isSome) := by
  rw [buildTagConnections] at hmem
  simp only [] at hmem
  rcases connsFold_origin
      (computeTagSimilarity logQ (buildCooccurrenceMatrix quotes).1
        (buildCooccurrenceMatrix quotes).2)
      expandManualConnections (buildCooccurrenceMatrix quotes).2 [] _ hmem with
    h | ⟨pc, hpc, h3, hA, hx⟩
  · cases h
  · have h1 : tag = pc.1 := congrArg Prod.fst hx
    have h2 : (rel, cnt) = (((relatedMap
        (computeTagSimilarity logQ (buildCooccurrenceMatrix quotes).1
          (buildCooccurrenceMatrix quotes).2)
        expandManualConnections pc.1).mergeSort scoreDescLe).take 15, pc.2) :=
      congrArg Prod.snd hx
    have hrel : rel = ((relatedMap
        (computeTagSimilarity logQ (buildCooccurrenceMatrix quotes).1
          (buildCooccurrenceMatrix quotes).2)
        expandManualConnections pc.1).mergeSort scoreDescLe).take 15 :=
      congrArg Prod.fst h2
    have hcnt : cnt = pc.2 := congrArg Prod.snd h2
    refine ⟨h1 ▸ hA, by omega, ?_, ?_⟩
    · rw [h1, hcnt]
      exact countGet_of_mem _ pc.1 pc.2 (counts_keys_nodup quotes)
        (by rw [tagCountsOf, buildCooccurrenceMatrix]; exact hpc)
    · intro p hp
      have hpr : p ∈ relatedMap
          (computeTagSimilarity logQ (buildCooccurrenceMatrix quotes).1
            (buildCooccurrenceMatrix quotes).2)
          expandManualConnections pc.1 := by
        rw [hrel] at hp
        exact ((List.mergeSort_perm _ scoreDescLe).mem_iff).mp (List.take_subset _ _ hp)
      have hget : rowGet? (relatedMap
          (computeTagSimilarity logQ (buildCooccurrenceMatrix quotes).1
            (buildCooccurrenceMatrix quotes).2)
          expandManualConnections pc.1) p.1 = some p.2 := by
        have := relatedMap_nodup
          (computeTagSimilarity logQ (buildCooccurrenceMatrix quotes).1
            (buildCooccurrenceMatrix quotes).2) expandManualConnections pc.1
        exact rowGet?_eq_of_mem this (by
          have : ((p.1 : String), (p.2 : ℚ)) = p := rfl
          rw [this]; exact hpr)
      rw [relatedMap] at hget
      rcases manualFold_origin _ _ _ _ hget with hr1 | ⟨q, hq, hq1⟩
      · rcases relatedFold_origin _ _ _ _ hr1 with h0 | ⟨hA2, q, hq, hq1⟩
        · simp [rowGet?] at h0
        · refine ⟨hA2, fun hlt => ?_⟩
          exfalso
          have hq' : ((p.1 : String), (q.2 : ℚ)) ∈ tblGet
              (computeTagSimilarity logQ (buildCooccurrenceMatrix quotes).1
                (buildCooccurrenceMatrix quotes).2) pc.1 := by
            rw [← hq1]
            exact hq
          have hsome : (getInTbl
              (computeTagSimilarity logQ (buildCooccurrenceMatrix quotes).1
                (buildCooccurrenceMatrix quotes).2) pc.1 p.1).isSome :=
            rowGet?_isSome_of_mem hq'
          have h3le := sims_target_count logQ (buildCooccurrenceMatrix quotes).1
            (buildCooccurrenceMatrix quotes).2 pc.1 p.1 hsome
          rw [tagCountsOf] at hlt
          omega
      · have hq' : ((p.1 : String), (q.2 : ℚ)) ∈ tblGet expandManualConnections pc.1 := by
          rw [← hq1]
          exact hq
        have hsome : (getInTbl expandManualConnections pc.1 p.1).isSome :=
          rowGet?_isSome_of_mem hq'
        exact ⟨(expandManual_allowed hsome).2, fun _ => h1 ▸ hsome⟩

/-! ## Two concrete rows of the expanded manual table -/

theorem tblGet_keys_nodup {m : Table} {k : String}
    (h : ∀ r ∈ m, (r.2.map Prod.fst).Nodup) : ((tblGet m k).map Prod.fst).Nodup := by
  induction m with
  | nil => simp [tblGet]
  | cons p rest ih =>
    rw [tblGet]
    by_cases hp : p.1 = k
    · rw [if_pos hp]
      exact h p (List.mem_cons_self _ _)
    · rw [if_neg hp]
      exact ih (fun r hr => h r (List.mem_cons_of_mem _ hr))

theorem manual_arch_row :
    tblGet expandManualConnections "architecture" =
      [("design", Rat.divInt 21 5), ("cities", (4 : ℚ)), ("art", Rat.divInt 7 2),
        ("civilisation", Rat.divInt 16 5), ("making", Rat.divInt 29 10)] := by
  rw [expandManualConnections, expandManualTable]
  rw [show MANUAL_CONNECTIONS = ("architecture",
      [("design", Rat.divInt 42 10), ("cities", Rat.divInt 40 10),
        ("art", Rat.divInt 35 10), ("civilisation", Rat.divInt 32 10),
        ("making", Rat.divInt 29 10)]) :: MANUAL_CONNECTIONS.tail from rfl]
  rw [List.foldl_cons]
  rw [expandFold_row_stable MANUAL_CONNECTIONS.tail _ (by decide) (by decide)]
  decide

theorem manual_banality_row :
    tblGet expandManualConnections "banality" = [] := by
  rw [expandManualConnections, expandManualTable]
  rw [expandFold_row_stable MANUAL_CONNECTIONS _ (by decide) (by decide)]
  rfl

theorem arch_cm : buildCooccurrenceMatrix archCorpus = ([], [("architecture", 3)]) := by
  decide

theorem arch_relatedMap :
    relatedMap (computeTagSimilarity (fun x => x) [] [("architecture", 3)])
      expandManualConnections "architecture" = archRel := by
  rw [relatedMap]
  rw [show computeTagSimilarity (fun x => x) [] [("architecture", 3)] = [] from rfl]
  rw [manual_arch_row]
  decide

theorem arch_output :
    buildTagConnections (fun x => x) archCorpus = [("architecture", (archRel, 3))] := by
  rw [buildTagConnections]
  simp only [arch_cm]
  rw [List.foldl_cons, List.foldl_nil]
  rw [if_neg (by decide : ¬((("architecture", 3) : String × ℕ).2 < 3))]
  rw [if_neg (by decide : ¬((("architecture", 3) : String × ℕ).1 ∉ ALLOWED_PRIMARY_TAGS))]
  rw [arch_relatedMap]
  rw [List.mergeSort_of_sorted (by decide : List.Pairwise (fun a b => scoreDescLe a b = true) archRel)]
  rfl

theorem manual_bureaucracy_row :
    tblGet expandManualConnections "bureaucracy" = [] := by
  rw [expandManualConnections, expandManualTable]
  rw [expandFold_row_stable MANUAL_CONNECTIONS _ (by decide) (by decide)]
  rfl

theorem bb_cm : buildCooccurrenceMatrix bbCorpus =
    ([("banality", [("bureaucracy", 3)]), ("bureaucracy", [("banality", 3)])],
      [("banality", 3), ("bureaucracy", 3)]) := by
  decide

theorem bb_sims : computeTagSimilarity (fun x => x)
    [("banality", [("bureaucracy", 3)]), ("bureaucracy", [("banality", 3)])]
    [("banality", 3), ("bureaucracy", 3)] =
    [("banality", [("bureaucracy", Rat.divInt 1001 250)]),
      ("bureaucracy", [("banality", Rat.divInt 1001 250)])] := by
  decide

theorem bb_rm_ban : relatedMap
    [("banality", [("bureaucracy", Rat.divInt 1001 250)]),
      ("bureaucracy", [("banality", Rat.divInt 1001 250)])]
    expandManualConnections "banality" = [("bureaucracy", Rat.divInt 1001 250)] := by
  rw [relatedMap, manual_banality_row]
  decide

theorem bb_rm_bur : relatedMap
    [("banality", [("bureaucracy", Rat.divInt 1001 250)]),
      ("bureaucracy", [("banality", Rat.divInt 1001 250)])]
    expandManualConnections "bureaucracy" = [("banality", Rat.divInt 1001 250)] := by
  rw [relatedMap, manual_bureaucracy_row]
  decide

theorem bb_output : buildTagConnections (fun x => x) bbCorpus =
    [("banality", ([("bureaucracy", Rat.divInt 1001 250)], 3)),
      ("bureaucracy", ([("banality", Rat.divInt 1001 250)], 3))] := by
  rw [buildTagConnections]
  simp only [bb_cm, bb_sims]
  rw [List.foldl_cons, List.foldl_cons, List.foldl_nil]
  rw [if_neg (by decide : ¬((("banality", 3) : String × ℕ).2 < 3))]
  rw [if_neg (by decide : ¬((("banality", 3) : String × ℕ).1 ∉ ALLOWED_PRIMARY_TAGS))]
  rw [bb_rm_ban]
  rw [List.mergeSort_of_sorted (by decide :
    List.Pairwise (fun a b => scoreDescLe a b = true) [("bureaucracy", Rat.divInt 1001 250)])]
  rw [if_neg (by decide : ¬((("bureaucracy", 3) : String × ℕ).2 < 3))]
  rw [if_neg (by decide : ¬((("bureaucracy", 3) : String × ℕ).1 ∉ ALLOWED_PRIMARY_TAGS))]
  rw [bb_rm_bur]
  rw [List.mergeSort_of_sorted (by decide :
    List.Pairwise (fun a b => scoreDescLe a b = true) [("banality", Rat.divInt 1001 250)])]
  rfl

/-- C1: REFUTED. On a corpus of three records tagged only `architecture`,
the output's `architecture` entry offers `design` as a related-tag target
with score 4.2 from the manual table, although `design` has corpus count
0 < 3. The claim's "no tag with corpus count below 3 appears ... as a
related-tag target ... (this covers targets contributed by the manual
connection table)" is false: the rarity filter is applied to top-level
keys only, and manual-table partners are merged with no count check. -/
theorem claim_C1_counterexample :
    ("architecture", (archRel, 3)) ∈ buildTagConnections (fun x => x) archCorpus ∧
    ("design", Rat.divInt 21 5) ∈ archRel ∧
    countGet (tagCountsOf archCorpus) "design" = 0 := by
  refine ⟨?_, by decide, by decide⟩
  rw [arch_output]
  exact List.mem_singleton.mpr rfl

theorem claim_C1_witness :
    "banality" ∈ ALLOWED_PRIMARY_TAGS ∧ 3 ≤ 3 ∧
    countGet (tagCountsOf bbCorpus) "banality" = 3 ∧
    ∀ p ∈ ([("bureaucracy", Rat.divInt 1001 250)] : Row),
      p.1 ∈ ALLOWED_PRIMARY_TAGS ∧
      (countGet (tagCountsOf bbCorpus) p.1 < 3 →
        (getInTbl expandManualConnections "banality" p.1).isSome) :=
  claim_C1_amended (fun x => x) bbCorpus "banality"
    [("bureaucracy", Rat.divInt 1001 250)] 3
    (by rw [bb_output]; exact List.mem_cons_self _ _)

/-- C7: CONFIRMED. Whenever an output entry's related list contains a
partner `other` (in the allowed vocabulary) for which the computed
similarity table has a score `s` for the pair, the score stored in the
related list is exactly `s`: the computed score is written first and the
manual-table pass only fills partners not already present, so a manual
score never overwrites a computed one. -/
theorem claim_C7 (logQ : ℚ → ℚ) (quotes : List Quote) (tag : String)
    (rel : Row) (cnt : ℕ) (other : String) (s v : ℚ)
    (hmem : (tag, (rel, cnt)) ∈ buildTagConnections logQ quotes)
    (hsim : rowGet? (tblGet (similaritiesOf logQ quotes) tag) other = some s)
    (hA : other ∈ ALLOWED_PRIMARY_TAGS)
    (hv : (other, v) ∈ rel) : v = s := by
  rw [buildTagConnections] at hmem
  simp only [] at hmem
  rcases connsFold_origin
      (computeTagSimilarity logQ (buildCooccurrenceMatrix quotes).1
        (buildCooccurrenceMatrix quotes).2)
      expandManualConnections (buildCooccurrenceMatrix quotes).2 [] _ hmem with
    h | ⟨pc, hpc, h3, hA2, hx⟩
  · cases h
  · have h1 : tag = pc.1 := congrArg Prod.fst hx
    have hrel : rel = ((relatedMap
        (computeTagSimilarity logQ (buildCooccurrenceMatrix quotes).1
          (buildCooccurrenceMatrix quotes).2)
        expandManualConnections pc.1).mergeSort scoreDescLe).take 15 :=
      congrArg (fun y => y.2.1) hx
    have hvr : ((other : String), (v : ℚ)) ∈ relatedMap
        (computeTagSimilarity logQ (buildCooccurrenceMatrix quotes).1
          (buildCooccurrenceMatrix quotes).2)
        expandManualConnections pc.1 := by
      rw [hrel] at hv
      exact ((List.mergeSort_perm _ scoreDescLe).mem_iff).mp (List.take_subset _ _ hv)
    have hget_v : rowGet? (relatedMap
        (computeTagSimilarity logQ (buildCooccurrenceMatrix quotes).1
          (buildCooccurrenceMatrix quotes).2)
        expandManualConnections pc.1) other = some v :=
      rowGet?_eq_of_mem (relatedMap_nodup _ _ _) hvr
    rw [similaritiesOf, h1] at hsim
    have hr1 : rowGet? ((tblGet
        (computeTagSimilarity logQ (buildCooccurrenceMatrix quotes).1
          (buildCooccurrenceMatrix quotes).2) pc.1).foldl relatedStep []) other = some s :=
      relatedFold_mem _ [] other s
        (tblGet_keys_nodup (sims_rows_nodup logQ _ _))
        (mem_of_rowGet?_eq hsim) hA
    have hkeep : rowGet? (relatedMap
        (computeTagSimilarity logQ (buildCooccurrenceMatrix quotes).1
          (buildCooccurrenceMatrix quotes).2)
        expandManualConnections pc.1) other = some s := by
      rw [relatedMap]
      rw [manualFold_keep _ _ _ (by rw [hr1]; rfl)]
      exact hr1
    rw [hget_v] at hkeep
    exact Option.some.inj hkeep

theorem claim_C7_witness : Rat.divInt 1001 250 = Rat.divInt 1001 250 :=
  claim_C7 (fun x => x) bbCorpus "banality"
    [("bureaucracy", Rat.divInt 1001 250)] 3 "bureaucracy"
    (Rat.divInt 1001 250) (Rat.divInt 1001 250)
    (by rw [bb_output]; exact List.mem_cons_self _ _)
    (by rw [similaritiesOf]; simp only [bb_cm]; rw [bb_sims]; decide)
    (by decide) (by decide)
